import Mathlib

/-!
# Verification of the light-weight append-only Merkle tree

A shallow embedding of `src/primitives/src/merkle_tree/light_weight.rs`
(the `LightWeightMerkleTree` of the Jellyfish library) together with the
parts of the generic Merkle-tree engine that the file uses
(`build_light_weight_tree_internal`, `extend_and_forget_internal`,
`lookup_internal`, proof verification and the capacity arithmetic from
`impl_merkle_tree_scheme!`).  Those internals live in
`merkle_tree/internal.rs` / the scheme macro, which are not part of the
source tree under verification, so they are modelled from the
specification (each such definition says so in its doc comment).

Modelling choices:
* Elements and indices are `Nat` (the element type is an opaque
  equality-comparable value in the code; the index type is `u64`, and no
  operation can overflow it because `num_leaves` is bounded by capacity).
* The digest algebra (an external collaborator, `DigestAlgorithm`) is
  modelled as an ideal (free) digest: a `leaf` digest binding
  `(position, element)`, a fixed `empty` sentinel, and an injective
  branch digest of a list of child digests.  Capacity is computed in
  `Nat`, which is arbitrary-precision like the `BigUint` in the code.
* The tree is generic over the arity `a` (a `typenum` constant in the
  code) and over the forgetting flag `f`: `f = true` is the light-weight
  tree of `light_weight.rs`, `f = false` the full-retention tree that
  shares the same algorithm.
-/

/-- Ideal digest values: a free algebra with an `empty` sentinel, a leaf
digest binding `(position, element)`, and a binary pairing node used to
encode the digest of a list of children (see `branchDigest`). -/
inductive Digest where
  | empty : Digest
  | leaf (pos : Nat) (elem : Nat) : Digest
  | node (l r : Digest) : Digest
deriving DecidableEq, Repr

/-- Digest of an ordered list of child digests
(`H::digest(children digests)` in the code).  The cons-encoding by
pairing makes it an injective function of the list, the defining
property of an ideal branch digest. -/
def branchDigest (l : List Digest) : Digest :=
  l.foldr Digest.node Digest.empty

/-- `MerkleNode` from `merkle_tree/internal.rs`: empty slot, leaf,
branch with an ordered list of children, or a forgotten subtree that
retains only its digest. -/
inductive MerkleNode where
  | Empty : MerkleNode
  | Leaf (value : Digest) (pos : Nat) (elem : Nat) : MerkleNode
  | Branch (value : Digest) (children : List MerkleNode) : MerkleNode
  | ForgottenSubtree (value : Digest) : MerkleNode

/-- The cached digest of a node (`MerkleNode::value()`); `Empty` has the
fixed sentinel digest. -/
def MerkleNode.value : MerkleNode → Digest
  | .Empty => Digest.empty
  | .Leaf v _ _ => v
  | .Branch v _ => v
  | .ForgottenSubtree v => v

/-- Modelled from the spec: whether a subtree of height `h` is fully
packed (no `Empty` remains beneath it), the side condition of the
forgetting step of the append engine (missing `internal.rs`).  Indexed
by the height so that recursion is structural on `h`. -/
def fullyPacked : Nat → MerkleNode → Bool
  | _, .ForgottenSubtree _ => true
  | 0, .Leaf _ _ _ => true
  | h + 1, .Branch _ cs => cs.all (fullyPacked h)
  | _, _ => false

/-- Modelled from the spec: `ToTraversalPath::to_traversal_path`
(missing `internal.rs`): the index written in base `a` with the most
significant digit first, exactly `h` digits, each in `[0, a)` — the
child selectors met when descending from the root.  As in the code
(which extracts exactly `height` base-`arity` digits), an index beyond
`a ^ h` is truncated to its low `h` digits. -/
def toTraversalPath (a : Nat) : Nat → Nat → List Nat
  | 0, _ => []
  | h + 1, pos => pos / a ^ h % a :: toTraversalPath a h (pos % a ^ h)

/-- The tree state: root node, height and number of leaves
(`LightWeightMerkleTree { root, height, num_leaves }`). -/
structure MT where
  root : MerkleNode
  height : Nat
  num_leaves : Nat

/-- `LightWeightMerkleTree::new`: empty root, zero leaves. -/
def MT.new (height : Nat) : MT :=
  ⟨MerkleNode.Empty, height, 0⟩

/-- `capacity()` from `impl_merkle_tree_scheme!` (missing macro,
modelled from the spec): `arity ^ height`, in arbitrary precision
(`Nat` here, `BigUint` in the code). -/
def capacity (a : Nat) (t : MT) : Nat :=
  a ^ t.height

/-- Modelled from the spec: one descent of
`extend_and_forget_internal` (missing `internal.rs`) placing one
element.  Descends along the traversal path; at each level every
sibling strictly to the left of the path that is fully packed is
replaced by `ForgottenSubtree` of its digest when `f` is set; at the
target slot `Empty` becomes a leaf; every branch digest on the path is
recomputed bottom-up. -/
def withInsert (a : Nat) (f : Bool) (pos e : Nat) : MerkleNode → List Nat → MerkleNode
  | _, [] => .Leaf (.leaf pos e) pos e
  | n, b :: rest =>
    let cs := match n with
      | .Branch _ cs => cs
      | _ => List.replicate a MerkleNode.Empty
    let cs' := (List.range a).map fun i =>
      let c := cs.getD i MerkleNode.Empty
      if i = b then withInsert a f pos e c rest
      else if f && decide (i < b) && fullyPacked rest.length c then
        .ForgottenSubtree c.value
      else c
    .Branch (branchDigest (cs'.map MerkleNode.value)) cs'

/-- One `push`-step of the extend engine on the tree state: insert at
position `num_leaves` along its traversal path and advance the count. -/
def insertMT (a : Nat) (f : Bool) (t : MT) (e : Nat) : MT :=
  ⟨withInsert a f t.num_leaves e t.root (toTraversalPath a t.height t.num_leaves),
   t.height, t.num_leaves + 1⟩

/-- Modelled from the spec: the element loop of
`extend_and_forget_internal` (missing `internal.rs`): place elements
one by one until the list is exhausted or capacity is reached; returns
the new state and the elements that did not fit. -/
def extendList (a : Nat) (f : Bool) : MT → List Nat → MT × List Nat
  | t, [] => (t, [])
  | t, e :: rest =>
    if t.num_leaves < a ^ t.height then
      extendList a f (insertMT a f t e) rest
    else (t, e :: rest)

/-- `extend` from `light_weight.rs` (lines 90–111): run the insertion
engine, then report a `ParameterError` iff elements remain
(`if iter.peek().is_some()`); insertions made before the error are
kept. -/
def extend (a : Nat) (f : Bool) (t : MT) (es : List Nat) : MT × Except String Unit :=
  let r := extendList a f t es
  (r.1, if r.2.isEmpty then Except.ok () else
    Except.error "Exceed merkle tree capacity")

/-- `push` from `light_weight.rs` (lines 86–88): literally `extend`
with the single-element sequence. -/
def push (a : Nat) (f : Bool) (t : MT) (e : Nat) : MT × Except String Unit :=
  extend a f t [e]

/-- Modelled from the spec: the digest of the complete tree of height
`h` over positions `[pos0, pos0 + a^h)` holding the elements of `es`
at positions `0, 1, …` — the canonical digest both operating modes
compute.  An entirely unfilled subtree keeps the `empty` sentinel. -/
def specD (a : Nat) (es : List Nat) : Nat → Nat → Digest
  | 0, pos0 =>
    match es[pos0]? with
    | none => Digest.empty
    | some e => Digest.leaf pos0 e
  | h + 1, pos0 =>
    if es.length ≤ pos0 then Digest.empty
    else branchDigest ((List.range a).map fun i => specD a es h (pos0 + i * a ^ h))

/-- Modelled from the spec: the reference shape of the subtree over
positions `[pos0, pos0 + a^h)` after the elements of `es` have been
appended in order (`build_tree_internal` /
`build_light_weight_tree_internal` of the missing `internal.rs`).
With `f = true` every fully packed subtree strictly left of the
frontier is a `ForgottenSubtree`; with `f = false` everything is
materialized. -/
def buildRef (a : Nat) (f : Bool) (es : List Nat) : Nat → Nat → MerkleNode
  | 0, pos0 =>
    match es[pos0]? with
    | none => MerkleNode.Empty
    | some e =>
      if f && decide (pos0 + 1 < es.length) then
        .ForgottenSubtree (.leaf pos0 e)
      else .Leaf (.leaf pos0 e) pos0 e
  | h + 1, pos0 =>
    if es.length ≤ pos0 then MerkleNode.Empty
    else if f && decide (pos0 + a ^ (h + 1) < es.length) then
      .ForgottenSubtree (specD a es (h + 1) pos0)
    else
      let cs := (List.range a).map fun i => buildRef a f es h (pos0 + i * a ^ h)
      .Branch (branchDigest (cs.map MerkleNode.value)) cs

/-- Modelled from the spec: minimal height `h ≥ 1` such that
`a ^ h ≥ n`, chosen by `from_elems` when no height is given. -/
def minHeightGo (a n : Nat) : Nat → Nat → Nat
  | 0, h => h
  | fuel + 1, h => if n ≤ a ^ h then h else minHeightGo a n fuel (h + 1)

/-- Modelled from the spec: the height chosen by `from_elems` when none
is supplied — minimal `h` with `a ^ h ≥ n`, and at least `1`. -/
def minHeight (a n : Nat) : Nat :=
  minHeightGo a n n 1

/-- `from_elems` from `light_weight.rs` (lines 64–77), with the builder
`build_light_weight_tree_internal` modelled from the spec: resolve the
height, fail with a `ParameterError` when the elements do not fit, and
otherwise build the light-weight tree bottom-up with the off-frontier
subtrees forgotten. -/
def from_elems (a : Nat) (height? : Option Nat) (es : List Nat) : Except String MT :=
  let h := match height? with
    | some h => h
    | none => minHeight a es.length
  if a ^ h < es.length then Except.error "Not enough capacity"
  else Except.ok ⟨buildRef a true es h 0, h, es.length⟩

/-- Result of the recursive proof-assembling walk (the raw sibling path,
leaf end first). -/
inductive NodeLookup where
  | Found (elem : Nat) (pf : List MerkleNode) : NodeLookup
  | NotInMemory : NodeLookup
  | NotFound : NodeLookup

/-- Modelled from the spec: `lookup_internal` (missing `internal.rs`):
walk the traversal path; a forgotten node means `NotInMemory`, an empty
slot `NotFound`; at the leaf return the element together with the
sibling-digest snapshots of every branch on the path (leaf end
first). -/
def lookupNode : MerkleNode → List Nat → NodeLookup
  | .Leaf v p e, [] => .Found e [.Leaf v p e]
  | .ForgottenSubtree _, _ => .NotInMemory
  | .Empty, _ => .NotFound
  | .Branch _ cs, b :: rest =>
    match lookupNode (cs.getD b MerkleNode.Empty) rest with
    | .Found e pf =>
      .Found e (pf ++ [.Branch Digest.empty (cs.map fun c => .ForgottenSubtree c.value)])
    | .NotInMemory => .NotInMemory
    | .NotFound => .NotFound
  | _, _ => .NotFound

/-- `MerkleProof`: declared height, claimed position, and the path of
node snapshots from the leaf level to the root. -/
structure ProofM where
  height : Nat
  pos : Nat
  path : List MerkleNode

instance : Inhabited ProofM := ⟨⟨0, 0, []⟩⟩

/-- The external lookup outcome (`LookupResult`). -/
inductive LookupRes where
  | Found (elem : Nat) (pf : ProofM) : LookupRes
  | NotInMemory : LookupRes
  | NotFound : LookupRes

/-- Modelled from the spec: `lookup` of `impl_merkle_tree_scheme!`
(missing macro): `NotFound` for `index ≥ num_leaves`, otherwise the
walk along the traversal path, packaging the assembled path as a
`MerkleProof`. -/
def lookup (a : Nat) (t : MT) (i : Nat) : LookupRes :=
  if t.num_leaves ≤ i then .NotFound
  else
    match lookupNode t.root (toTraversalPath a t.height i) with
    | .Found e pf => .Found e ⟨t.height, i, pf⟩
    | .NotInMemory => .NotInMemory
    | .NotFound => .NotFound

/-- Modelled from the spec: the bottom-up digest recomputation of proof
verification: starting from the recomputed leaf digest, at each level
take the sibling digests of the recorded branch snapshot, substitute
the running digest at the recorded child selector, and digest; any
non-branch snapshot is a shape error. -/
def verifyFold : Digest → List (Nat × MerkleNode) → Except String Digest
  | v, [] => Except.ok v
  | v, (b, .Branch _ cs) :: rest =>
    verifyFold (branchDigest ((cs.map MerkleNode.value).set b v)) rest
  | _, (_, _) :: _ => Except.error "Incompatible proof type"

/-- Modelled from the spec: `verify` of `impl_merkle_tree_scheme!`
(missing macro): shape checks (path length against the declared height,
claimed and recorded position consistent with the index) fail hard;
then the leaf digest is recomputed fresh from the recorded
`(position, element)` — the stored digest is never trusted — ancestors
are recomputed bottom-up, and the result is compared with the claimed
root: `ok true` is `Valid`, `ok false` is `Invalid`. -/
def verify (a : Nat) (root : Digest) (idx : Nat) (p : ProofM) : Except String Bool :=
  if p.path.length ≠ p.height + 1 then Except.error "Incompatible proof length"
  else if p.pos ≠ idx then Except.error "Proof position mismatch"
  else
    match p.path with
    | .Leaf _ lpos lelem :: rest =>
      if lpos ≠ idx then Except.error "Proof position mismatch"
      else
        match verifyFold (Digest.leaf lpos lelem)
            ((toTraversalPath a p.height idx).reverse.zip rest) with
        | Except.ok computed => Except.ok (decide (computed = root))
        | Except.error s => Except.error s
    | _ => Except.error "Invalid proof type"

instance : DecidableEq (Except String Bool)
  | Except.ok x, Except.ok y =>
    if h : x = y then Decidable.isTrue (by rw [h])
    else Decidable.isFalse (by intro hc; injection hc; contradiction)
  | Except.error s, Except.error t =>
    if h : s = t then Decidable.isTrue (by rw [h])
    else Decidable.isFalse (by intro hc; injection hc; contradiction)
  | Except.ok _, Except.error _ => Decidable.isFalse (by intro hc; cases hc)
  | Except.error _, Except.ok _ => Decidable.isFalse (by intro hc; cases hc)

/-- Replace the recorded element at the leaf level of a proof, keeping
the (now stale) cached digest and everything else. -/
def tamperElem (p : ProofM) (e' : Nat) : ProofM :=
  ⟨p.height, p.pos,
   match p.path with
   | .Leaf v lp _ :: rest => .Leaf v lp e' :: rest
   | l => l⟩

/-- Relabel the recorded position of a proof (both the claimed position
and the one recorded at the leaf level), keeping the stale cached
digest and the recorded element. -/
def tamperPos (p : ProofM) (p' : Nat) : ProofM :=
  ⟨p.height, p',
   match p.path with
   | .Leaf v _ le :: rest => .Leaf v p' le :: rest
   | l => l⟩

/-- Walking a digest term: the `b`-th child digest of a branch digest
(follows the cons-encoding of `branchDigest`). -/
def childAt : Digest → Nat → Option Digest
  | .node l _, 0 => some l
  | .node _ r, b + 1 => childAt r b
  | _, _ => none

/-- Walking a digest term along a child-selector path. -/
def subtermAt : Digest → List Nat → Option Digest
  | d, [] => some d
  | d, b :: rest =>
    match childAt d b with
    | some c => subtermAt c rest
    | none => none

/-! ## Basic properties of the digest algebra and of list/arithmetic helpers -/

theorem branchDigest_inj : ∀ {l₁ l₂ : List Digest},
    branchDigest l₁ = branchDigest l₂ → l₁ = l₂ := by
  intro l₁
  induction l₁ with
  | nil =>
    intro l₂ h
    cases l₂ with
    | nil => rfl
    | cons x xs => simp [branchDigest] at h
  | cons x xs ih =>
    intro l₂ h
    cases l₂ with
    | nil => simp [branchDigest] at h
    | cons y ys =>
      simp only [branchDigest, List.foldr_cons] at h
      injection h with h1 h2
      have h2' : branchDigest xs = branchDigest ys := h2
      rw [h1, ih h2']

theorem rangeMap_getD {α : Type} (g : Nat → α) (d : α) {i a : Nat} (h : i < a) :
    ((List.range a).map g).getD i d = g i := by
  rw [List.getD_eq_getElem?_getD, List.getElem?_map, List.getElem?_range h]
  rfl

theorem set_getD_self {α : Type} :
    ∀ (l : List α) (n : Nat) (d : α), n < l.length → l.set n (l.getD n d) = l := by
  intro l
  induction l with
  | nil => intro n d h; simp at h
  | cons x xs ih =>
    intro n d h
    cases n with
    | zero => simp [List.getD]
    | succ m =>
      simp only [List.set, List.getD, List.getElem?_cons_succ, List.cons.injEq, true_and]
      have := ih m d (by simpa using h)
      simpa [List.getD] using this

theorem toTraversalPath_length (a : Nat) :
    ∀ (h pos : Nat), (toTraversalPath a h pos).length = h := by
  intro h
  induction h with
  | zero => intro pos; rfl
  | succ h ih => intro pos; simp [toTraversalPath, ih]

theorem toTraversalPath_digits_lt (a : Nat) (ha : 0 < a) :
    ∀ (h pos : Nat), ∀ b ∈ toTraversalPath a h pos, b < a := by
  intro h
  induction h with
  | zero => intro pos b hb; simp [toTraversalPath] at hb
  | succ h ih =>
    intro pos b hb
    simp only [toTraversalPath, List.mem_cons] at hb
    rcases hb with hb | hb
    · subst hb
      exact Nat.mod_lt _ ha
    · exact ih (pos % a ^ h) b hb

theorem childAt_branchDigest :
    ∀ (l : List Digest) (b : Nat), childAt (branchDigest l) b = l[b]? := by
  intro l
  induction l with
  | nil => intro b; cases b <;> simp [branchDigest, childAt]
  | cons x xs ih =>
    intro b
    cases b with
    | zero => simp [branchDigest, childAt]
    | succ m => simpa [branchDigest, childAt] using ih m

theorem subtermAt_append :
    ∀ (l₁ l₂ : List Nat) (d : Digest),
      subtermAt d (l₁ ++ l₂) = (subtermAt d l₁).bind (fun c => subtermAt c l₂) := by
  intro l₁
  induction l₁ with
  | nil => intro l₂ d; simp [subtermAt]
  | cons b rest ih =>
    intro l₂ d
    simp only [List.cons_append, subtermAt]
    cases childAt d b with
    | none => simp
    | some c => simpa using ih l₂ c

/-! ## The reference shape: digests and structure of built trees -/

theorem specD_succ (a : Nat) (es : List Nat) (h p : Nat) :
    specD a es (h + 1) p =
      if es.length ≤ p then Digest.empty
      else branchDigest ((List.range a).map fun i => specD a es h (p + i * a ^ h)) :=
  rfl

theorem buildRef_succ (a : Nat) (f : Bool) (es : List Nat) (h p : Nat) :
    buildRef a f es (h + 1) p =
      if es.length ≤ p then MerkleNode.Empty
      else if f && decide (p + a ^ (h + 1) < es.length) then
        MerkleNode.ForgottenSubtree (specD a es (h + 1) p)
      else
        MerkleNode.Branch
          (branchDigest (((List.range a).map fun i =>
            buildRef a f es h (p + i * a ^ h)).map MerkleNode.value))
          ((List.range a).map fun i => buildRef a f es h (p + i * a ^ h)) :=
  rfl

theorem toTraversalPath_succ (a h pos : Nat) :
    toTraversalPath a (h + 1) pos =
      pos / a ^ h % a :: toTraversalPath a h (pos % a ^ h) :=
  rfl

/-- For an in-range index the leading selector is the plain quotient:
the truncation of the new leading digit is the identity. -/
theorem toTraversalPath_succ_lt (a h pos : Nat) (hlt : pos < a ^ (h + 1)) :
    toTraversalPath a (h + 1) pos =
      pos / a ^ h :: toTraversalPath a h (pos % a ^ h) := by
  rw [toTraversalPath_succ]
  have hah : 0 < a ^ h := by
    rcases Nat.eq_zero_or_pos (a ^ h) with h0 | h0
    · rw [pow_succ, h0, zero_mul] at hlt; omega
    · exact h0
  have hdlt : pos / a ^ h < a := by
    rw [Nat.div_lt_iff_lt_mul hah, ← pow_succ']
    exact hlt
  rw [Nat.mod_eq_of_lt hdlt]

/-- The traversal path only depends on the index modulo the capacity:
selectors are the low `h` base-`a` digits. -/
theorem toTraversalPath_mod (a h pos : Nat) :
    toTraversalPath a h (pos % a ^ h) = toTraversalPath a h pos := by
  cases h with
  | zero => rfl
  | succ h =>
    rw [toTraversalPath_succ, toTraversalPath_succ]
    have h1 : pos % a ^ (h + 1) % a ^ h = pos % a ^ h :=
      Nat.mod_mod_of_dvd pos (pow_dvd_pow a (Nat.le_succ h))
    have h2 : pos % a ^ (h + 1) / a ^ h % a = pos / a ^ h % a := by
      rw [pow_succ, Nat.mod_mul_right_div_self, Nat.mod_mod_of_dvd _ (dvd_refl a)]
    rw [h1, h2]

theorem buildRef_empty_of {a : Nat} {f : Bool} {es : List Nat} :
    ∀ {h p : Nat}, es.length ≤ p → buildRef a f es h p = MerkleNode.Empty := by
  intro h p hp
  cases h with
  | zero =>
    have : es[p]? = none := by
      rw [List.getElem?_eq_none_iff]; exact hp
    simp [buildRef, this]
  | succ h => simp [buildRef, hp]

theorem specD_empty_of {a : Nat} {es : List Nat} :
    ∀ {h p : Nat}, es.length ≤ p → specD a es h p = Digest.empty := by
  intro h p hp
  cases h with
  | zero =>
    have : es[p]? = none := by
      rw [List.getElem?_eq_none_iff]; exact hp
    simp [specD, this]
  | succ h => simp [specD, hp]

theorem value_buildRef {a : Nat} {f : Bool} {es : List Nat} :
    ∀ (h p : Nat), (buildRef a f es h p).value = specD a es h p := by
  intro h
  induction h with
  | zero =>
    intro p
    simp only [buildRef, specD]
    cases es[p]? with
    | none => rfl
    | some e =>
      by_cases hc : f && decide (p + 1 < es.length) <;> simp [hc, MerkleNode.value]
  | succ h ih =>
    intro p
    rw [buildRef_succ, specD_succ]
    by_cases h1 : es.length ≤ p
    · simp [h1, MerkleNode.value]
    · rw [if_neg h1, if_neg h1]
      by_cases h2 : (f && decide (p + a ^ (h + 1) < es.length)) = true
      · rw [if_pos h2]
        simp [MerkleNode.value, specD_succ, h1]
      · rw [if_neg h2]
        simp only [MerkleNode.value]
        rw [List.map_map]
        congr 1
        exact List.map_congr_left fun i _ => ih (p + i * a ^ h)

theorem buildRef_forgotten {a : Nat} {es : List Nat} :
    ∀ {h p : Nat}, p + a ^ h < es.length →
      buildRef a true es h p = MerkleNode.ForgottenSubtree (specD a es h p) := by
  intro h p hp
  cases h with
  | zero =>
    rw [pow_zero] at hp
    have hlt : p < es.length := by omega
    have hsome : es[p]? = some es[p] := List.getElem?_eq_getElem hlt
    simp [buildRef, specD, hsome, hp]
  | succ h =>
    have hlt : p < es.length := by omega
    rw [buildRef_succ, if_neg (Nat.not_le.mpr hlt), if_pos (by simpa using hp)]

theorem specD_stable {a : Nat} {es : List Nat} {e : Nat} :
    ∀ (h p : Nat), p + a ^ h ≤ es.length → 0 < a ^ h →
      specD a (es ++ [e]) h p = specD a es h p := by
  intro h
  induction h with
  | zero =>
    intro p hp _
    rw [pow_zero] at hp
    have hlt : p < es.length := by omega
    simp only [specD]
    rw [List.getElem?_append_left hlt]
  | succ h ih =>
    intro p hp hpos
    have hpos' : 0 < a ^ h := by
      rcases Nat.eq_zero_or_pos (a ^ h) with h0 | h0
      · rw [pow_succ, h0, zero_mul] at hpos; omega
      · exact h0
    have hlt : p < es.length := by
      have : 0 < a ^ (h + 1) := hpos
      omega
    rw [specD_succ, specD_succ,
      if_neg (by simp only [List.length_append, List.length_cons, List.length_nil]; omega),
      if_neg (Nat.not_le.mpr hlt)]
    congr 1
    refine List.map_congr_left fun i hi => ?_
    have hia : i < a := List.mem_range.mp hi
    refine ih (p + i * a ^ h) ?_ hpos'
    have : (i + 1) * a ^ h ≤ a ^ (h + 1) := by
      rw [pow_succ, mul_comm (a ^ h) a]
      exact Nat.mul_le_mul_right _ (by omega)
    calc p + i * a ^ h + a ^ h = p + (i + 1) * a ^ h := by ring
    _ ≤ p + a ^ (h + 1) := by omega
    _ ≤ es.length := hp

theorem buildRef_stable_false {a : Nat} {es : List Nat} {e : Nat} :
    ∀ (h p : Nat), p + a ^ h ≤ es.length → 0 < a ^ h →
      buildRef a false (es ++ [e]) h p = buildRef a false es h p := by
  intro h
  induction h with
  | zero =>
    intro p hp _
    rw [pow_zero] at hp
    have hlt : p < es.length := by omega
    simp only [buildRef]
    rw [List.getElem?_append_left hlt]
    simp
  | succ h ih =>
    intro p hp hpos
    have hpos' : 0 < a ^ h := by
      rcases Nat.eq_zero_or_pos (a ^ h) with h0 | h0
      · rw [pow_succ, h0, zero_mul] at hpos; omega
      · exact h0
    have hlt : p < es.length := by
      have : 0 < a ^ (h + 1) := hpos
      omega
    rw [buildRef_succ, buildRef_succ,
      if_neg (by simp only [List.length_append, List.length_cons, List.length_nil]; omega),
      if_neg (Nat.not_le.mpr hlt)]
    simp only [Bool.false_and, Bool.false_eq_true, if_false]
    have hchildren : ((List.range a).map fun i => buildRef a false (es ++ [e]) h (p + i * a ^ h))
        = (List.range a).map fun i => buildRef a false es h (p + i * a ^ h) := by
      refine List.map_congr_left fun i hi => ?_
      have hia : i < a := List.mem_range.mp hi
      refine ih (p + i * a ^ h) ?_ hpos'
      have : (i + 1) * a ^ h ≤ a ^ (h + 1) := by
        rw [pow_succ, mul_comm (a ^ h) a]
        exact Nat.mul_le_mul_right _ (by omega)
      calc p + i * a ^ h + a ^ h = p + (i + 1) * a ^ h := by ring
      _ ≤ p + a ^ (h + 1) := by omega
      _ ≤ es.length := hp
    rw [hchildren]

theorem fullyPacked_buildRef {a : Nat} {f : Bool} {es : List Nat} :
    ∀ (h p : Nat), p + a ^ h ≤ es.length → 0 < a ^ h →
      fullyPacked h (buildRef a f es h p) = true := by
  intro h
  induction h with
  | zero =>
    intro p hp _
    rw [pow_zero] at hp
    have hlt : p < es.length := by omega
    have hsome : es[p]? = some es[p] := List.getElem?_eq_getElem hlt
    simp only [buildRef, hsome]
    by_cases hc : (f && decide (p + 1 < es.length)) = true <;>
      simp [hc, fullyPacked]
  | succ h ih =>
    intro p hp hpos
    have hpos' : 0 < a ^ h := by
      rcases Nat.eq_zero_or_pos (a ^ h) with h0 | h0
      · rw [pow_succ, h0, zero_mul] at hpos; omega
      · exact h0
    have hlt : p < es.length := by
      have : 0 < a ^ (h + 1) := hpos
      omega
    rw [buildRef_succ, if_neg (Nat.not_le.mpr hlt)]
    by_cases h2 : (f && decide (p + a ^ (h + 1) < es.length)) = true
    · rw [if_pos h2]; rfl
    · rw [if_neg h2]
      simp only [fullyPacked, List.all_eq_true]
      intro x hx
      rcases List.mem_map.mp hx with ⟨i, hi, rfl⟩
      have hia : i < a := List.mem_range.mp hi
      refine ih (p + i * a ^ h) ?_ hpos'
      have : (i + 1) * a ^ h ≤ a ^ (h + 1) := by
        rw [pow_succ, mul_comm (a ^ h) a]
        exact Nat.mul_le_mul_right _ (by omega)
      calc p + i * a ^ h + a ^ h = p + (i + 1) * a ^ h := by ring
      _ ≤ p + a ^ (h + 1) := by omega
      _ ≤ es.length := hp

/-! ## Unfolding and small helpers for the insertion engine -/

theorem pow_pred_pos {a h : Nat} (hpos : 0 < a ^ (h + 1)) : 0 < a ^ h ∧ 0 < a := by
  constructor
  · exact Nat.pos_of_ne_zero fun h0 => by rw [pow_succ, h0, zero_mul] at hpos; omega
  · exact Nat.pos_of_ne_zero fun h0 => by rw [pow_succ, h0, mul_zero] at hpos; omega

theorem child_le_pow {a h i : Nat} (hia : i < a) : (i + 1) * a ^ h ≤ a ^ (h + 1) := by
  rw [pow_succ, mul_comm (a ^ h) a]
  exact Nat.mul_le_mul_right _ (by omega)

theorem getD_replicate_self {α : Type} (n i : Nat) (x : α) :
    (List.replicate n x).getD i x = x := by
  rw [List.getD_eq_getElem?_getD, List.getElem?_replicate]
  by_cases h : i < n <;> simp [h]

theorem fullyPacked_empty (h : Nat) : fullyPacked h MerkleNode.Empty = false := by
  cases h <;> rfl

theorem withInsert_branch (a : Nat) (f : Bool) (pos e : Nat) (v : Digest)
    (cs : List MerkleNode) (b : Nat) (rest : List Nat) :
    withInsert a f pos e (MerkleNode.Branch v cs) (b :: rest) =
      MerkleNode.Branch
        (branchDigest (((List.range a).map fun i =>
          if i = b then withInsert a f pos e (cs.getD i MerkleNode.Empty) rest
          else if f && decide (i < b) && fullyPacked rest.length (cs.getD i MerkleNode.Empty) then
            MerkleNode.ForgottenSubtree (cs.getD i MerkleNode.Empty).value
          else cs.getD i MerkleNode.Empty).map MerkleNode.value))
        ((List.range a).map fun i =>
          if i = b then withInsert a f pos e (cs.getD i MerkleNode.Empty) rest
          else if f && decide (i < b) && fullyPacked rest.length (cs.getD i MerkleNode.Empty) then
            MerkleNode.ForgottenSubtree (cs.getD i MerkleNode.Empty).value
          else cs.getD i MerkleNode.Empty) :=
  rfl

theorem withInsert_emptyNode (a : Nat) (f : Bool) (pos e : Nat) (b : Nat) (rest : List Nat) :
    withInsert a f pos e MerkleNode.Empty (b :: rest) =
      MerkleNode.Branch
        (branchDigest (((List.range a).map fun i =>
          if i = b then
            withInsert a f pos e ((List.replicate a MerkleNode.Empty).getD i MerkleNode.Empty) rest
          else if f && decide (i < b) &&
              fullyPacked rest.length ((List.replicate a MerkleNode.Empty).getD i MerkleNode.Empty) then
            MerkleNode.ForgottenSubtree ((List.replicate a MerkleNode.Empty).getD i MerkleNode.Empty).value
          else (List.replicate a MerkleNode.Empty).getD i MerkleNode.Empty).map MerkleNode.value))
        ((List.range a).map fun i =>
          if i = b then
            withInsert a f pos e ((List.replicate a MerkleNode.Empty).getD i MerkleNode.Empty) rest
          else if f && decide (i < b) &&
              fullyPacked rest.length ((List.replicate a MerkleNode.Empty).getD i MerkleNode.Empty) then
            MerkleNode.ForgottenSubtree ((List.replicate a MerkleNode.Empty).getD i MerkleNode.Empty).value
          else (List.replicate a MerkleNode.Empty).getD i MerkleNode.Empty) :=
  rfl

/-- Placing the first element of a fresh (entirely `Empty`) subtree:
the traversal path within the subtree is all zeros and the result is the
reference shape for the extended element list. -/
theorem withInsert_fresh {a : Nat} {f : Bool} {es : List Nat} {e : Nat} (ha : 0 < a) :
    ∀ (h pos : Nat), es.length = pos →
      withInsert a f pos e MerkleNode.Empty (toTraversalPath a h 0)
        = buildRef a f (es ++ [e]) h pos := by
  intro h
  induction h with
  | zero =>
    intro pos hpos
    subst hpos
    show MerkleNode.Leaf (Digest.leaf es.length e) es.length e = _
    simp [buildRef, List.getElem?_concat_length]
  | succ h ih =>
    intro pos hpos
    have hah : 0 < a ^ h := Nat.pos_pow_of_pos h ha
    simp only [toTraversalPath_succ, Nat.zero_div, Nat.zero_mod]
    rw [withInsert_emptyNode]
    have hcs : ((List.range a).map fun i =>
        if i = 0 then
          withInsert a f pos e ((List.replicate a MerkleNode.Empty).getD i MerkleNode.Empty)
            (toTraversalPath a h 0)
        else if f && decide (i < 0) &&
            fullyPacked (toTraversalPath a h 0).length
              ((List.replicate a MerkleNode.Empty).getD i MerkleNode.Empty) then
          MerkleNode.ForgottenSubtree
            ((List.replicate a MerkleNode.Empty).getD i MerkleNode.Empty).value
        else (List.replicate a MerkleNode.Empty).getD i MerkleNode.Empty)
        = (List.range a).map fun i => buildRef a f (es ++ [e]) h (pos + i * a ^ h) := by
      refine List.map_congr_left fun i hi => ?_
      have hia : i < a := List.mem_range.mp hi
      rw [getD_replicate_self]
      by_cases hi0 : i = 0
      · subst hi0
        rw [if_pos rfl, ih pos hpos]
        congr 1
        omega
      · rw [if_neg hi0, if_neg (by simp), buildRef_empty_of]
        have : 1 ≤ i * a ^ h := by
          have : 1 * 1 ≤ i * a ^ h := Nat.mul_le_mul (by omega) hah
          omega
        simp only [List.length_append, List.length_cons, List.length_nil]
        omega
    rw [hcs, buildRef_succ,
      if_neg (by simp only [List.length_append, List.length_cons, List.length_nil]; omega),
      if_neg (by
        simp only [Bool.and_eq_true, decide_eq_true_eq, not_and]
        intro _
        have : 0 < a ^ (h + 1) := Nat.pos_pow_of_pos _ ha
        simp only [List.length_append, List.length_cons, List.length_nil]
        omega)]

/-- The central step lemma: inserting the next element (at position
`es.length`) into the reference shape for `es` yields the reference
shape for `es ++ [e]`, in either operating mode. -/
theorem withInsert_commute {a : Nat} {f : Bool} {es : List Nat} {e : Nat} :
    ∀ (h pos0 : Nat), pos0 ≤ es.length → es.length < pos0 + a ^ h →
      withInsert a f es.length e (buildRef a f es h pos0)
          (toTraversalPath a h (es.length - pos0))
        = buildRef a f (es ++ [e]) h pos0 := by
  intro h
  induction h with
  | zero =>
    intro pos0 h1 h2
    rw [pow_zero] at h2
    have hpe : pos0 = es.length := by omega
    subst hpe
    rw [buildRef_empty_of (le_refl _)]
    show MerkleNode.Leaf (Digest.leaf es.length e) es.length e = _
    simp [buildRef, List.getElem?_concat_length]
  | succ h ih =>
    intro pos0 h1 h2
    by_cases hA : es.length ≤ pos0
    · have hpe : es.length = pos0 := le_antisymm hA h1
      have hpos : 0 < a ^ (h + 1) := by omega
      have ha : 0 < a := (pow_pred_pos hpos).2
      rw [buildRef_empty_of hA, Nat.sub_eq_zero_of_le hA, hpe]
      exact withInsert_fresh ha (h + 1) pos0 hpe
    · push_neg at hA
      have hpos : 0 < a ^ (h + 1) := by omega
      obtain ⟨hah, ha⟩ := pow_pred_pos hpos
      have hnotf : ¬(f && decide (pos0 + a ^ (h + 1) < es.length)) = true := by
        simp only [Bool.and_eq_true, decide_eq_true_eq, not_and]
        intro _
        omega
      have hnotf' : ¬(f && decide (pos0 + a ^ (h + 1) < (es ++ [e]).length)) = true := by
        simp only [Bool.and_eq_true, decide_eq_true_eq, not_and,
          List.length_append, List.length_cons, List.length_nil]
        intro _
        omega
      rw [buildRef_succ, if_neg (Nat.not_le.mpr hA), if_neg hnotf]
      set d := es.length - pos0 with hd
      set b := d / a ^ h with hb
      have hbm : b * a ^ h ≤ d := Nat.div_mul_le_self d (a ^ h)
      have hmul : a ^ h * b = b * a ^ h := mul_comm _ _
      have hmod : d % a ^ h = d - b * a ^ h := by
        have h5 := Nat.mod_add_div d (a ^ h)
        have h6 : a ^ h * (d / a ^ h) = b * a ^ h := by rw [hb, mul_comm]
        omega
      have hmod_lt : d % a ^ h < a ^ h := Nat.mod_lt _ hah
      have hblt : b < a := by
        have hda : d < a ^ (h + 1) := by omega
        rw [pow_succ] at hda
        rw [hb, Nat.div_lt_iff_lt_mul hah, mul_comm a (a ^ h)]
        exact hda
      rw [toTraversalPath_succ_lt a h d (by omega), withInsert_branch]
      have hcs : ((List.range a).map fun i =>
          if i = b then
            withInsert a f es.length e
              (((List.range a).map fun j => buildRef a f es h (pos0 + j * a ^ h)).getD i
                MerkleNode.Empty)
              (toTraversalPath a h (d % a ^ h))
          else if f && decide (i < b) &&
              fullyPacked (toTraversalPath a h (d % a ^ h)).length
                (((List.range a).map fun j => buildRef a f es h (pos0 + j * a ^ h)).getD i
                  MerkleNode.Empty) then
            MerkleNode.ForgottenSubtree
              (((List.range a).map fun j => buildRef a f es h (pos0 + j * a ^ h)).getD i
                MerkleNode.Empty).value
          else
            ((List.range a).map fun j => buildRef a f es h (pos0 + j * a ^ h)).getD i
              MerkleNode.Empty)
          = (List.range a).map fun i => buildRef a f (es ++ [e]) h (pos0 + i * a ^ h) := by
        refine List.map_congr_left fun i hi => ?_
        have hia : i < a := List.mem_range.mp hi
        rw [rangeMap_getD _ _ hia, toTraversalPath_length]
        by_cases hib : i = b
        · rw [if_pos hib]
          have hieq : i * a ^ h = b * a ^ h := by rw [hib]
          have harg : d % a ^ h = es.length - (pos0 + i * a ^ h) := by omega
          rw [harg]
          exact ih (pos0 + i * a ^ h) (by omega) (by omega)
        · rw [if_neg hib]
          rcases Nat.lt_or_ge i b with hlt | hge
          · -- strictly left sibling: fully packed; forgotten in light mode
            have hstep : i * a ^ h + a ^ h = (i + 1) * a ^ h := by ring
            have hmono : (i + 1) * a ^ h ≤ b * a ^ h :=
              Nat.mul_le_mul_right _ (by omega)
            have hile : pos0 + i * a ^ h + a ^ h ≤ es.length := by omega
            rw [fullyPacked_buildRef h (pos0 + i * a ^ h) hile hah]
            cases f with
            | false =>
              simp only [Bool.false_and, Bool.false_eq_true, if_false]
              exact (buildRef_stable_false h (pos0 + i * a ^ h) hile hah).symm
            | true =>
              rw [if_pos (by simp [hlt]), value_buildRef,
                buildRef_forgotten (by
                  simp only [List.length_append, List.length_cons, List.length_nil]
                  omega)]
              rw [specD_stable h (pos0 + i * a ^ h) hile hah]
          · -- right sibling: still empty on both sides
            have hgt : b < i := by omega
            have hstep : b * a ^ h + a ^ h = (b + 1) * a ^ h := by ring
            have hmono : (b + 1) * a ^ h ≤ i * a ^ h :=
              Nat.mul_le_mul_right _ (by omega)
            have hge2 : es.length ≤ pos0 + i * a ^ h := by omega
            rw [buildRef_empty_of hge2,
              if_neg (by simp only [fullyPacked_empty, Bool.and_false,
                Bool.false_eq_true, not_false_eq_true]),
              buildRef_empty_of (by
                simp only [List.length_append, List.length_cons, List.length_nil]
                omega)]
      rw [hcs, buildRef_succ,
        if_neg (by simp only [List.length_append, List.length_cons, List.length_nil]; omega),
        if_neg hnotf']

/-! ## The extend engine against the reference shape -/

theorem extendList_nil (a : Nat) (f : Bool) (t : MT) :
    extendList a f t [] = (t, []) :=
  rfl

theorem extendList_cons (a : Nat) (f : Bool) (t : MT) (e : Nat) (rest : List Nat) :
    extendList a f t (e :: rest) =
      if t.num_leaves < a ^ t.height then extendList a f (insertMT a f t e) rest
      else (t, e :: rest) :=
  rfl

theorem buildRef_nil (a : Nat) (f : Bool) (h p : Nat) :
    buildRef a f [] h p = MerkleNode.Empty :=
  buildRef_empty_of (by simp)

/-- Every successful insertion keeps the tree in reference shape:
running the engine from the reference shape of `es` appends exactly the
prefix of the input that fits and returns the rest. -/
theorem extendList_ref {a : Nat} {f : Bool} :
    ∀ (more es : List Nat) (h : Nat), es.length ≤ a ^ h →
      extendList a f ⟨buildRef a f es h 0, h, es.length⟩ more
        = (⟨buildRef a f (es ++ more.take (a ^ h - es.length)) h 0, h,
            min (es.length + more.length) (a ^ h)⟩,
           more.drop (a ^ h - es.length)) := by
  intro more
  induction more with
  | nil =>
    intro es h hle
    rw [extendList_nil, List.take_nil, List.drop_nil, List.append_nil]
    have : min (es.length + ([] : List Nat).length) (a ^ h) = es.length := by
      simp only [List.length_nil, Nat.add_zero]
      omega
    rw [this]
  | cons e rest ih =>
    intro es h hle
    rw [extendList_cons]
    by_cases hlt : es.length < a ^ h
    · rw [if_pos hlt]
      have hroot : withInsert a f es.length e (buildRef a f es h 0)
          (toTraversalPath a h es.length) = buildRef a f (es ++ [e]) h 0 := by
        rw [show toTraversalPath a h es.length = toTraversalPath a h (es.length - 0) by
            rw [Nat.sub_zero]]
        exact withInsert_commute h 0 (Nat.zero_le _) (by omega)
      have hins : insertMT a f ⟨buildRef a f es h 0, h, es.length⟩ e
          = ⟨buildRef a f (es ++ [e]) h 0, h, (es ++ [e]).length⟩ := by
        simp [insertMT, hroot]
      rw [hins, ih (es ++ [e]) h (by
        simp only [List.length_append, List.length_cons, List.length_nil]
        omega)]
      have hsub : a ^ h - es.length = (a ^ h - (es ++ [e]).length) + 1 := by
        simp only [List.length_append, List.length_cons, List.length_nil]
        omega
      rw [hsub, List.take_succ_cons, List.drop_succ_cons, List.append_assoc]
      have hmin : min ((es ++ [e]).length + rest.length) (a ^ h)
          = min (es.length + (e :: rest).length) (a ^ h) := by
        simp only [List.length_append, List.length_cons, List.length_nil]
        omega
      rw [hmin]
      rfl
    · rw [if_neg hlt]
      have heq : es.length = a ^ h := by omega
      have hz : a ^ h - es.length = 0 := by omega
      rw [hz, List.take_zero, List.drop_zero, List.append_nil]
      have hmin : min (es.length + (e :: rest).length) (a ^ h) = es.length := by
        simp only [List.length_cons]
        omega
      rw [hmin]

/-- The height is fixed for the tree lifetime. -/
theorem extendList_height (a : Nat) (f : Bool) :
    ∀ (es : List Nat) (t : MT), (extendList a f t es).1.height = t.height := by
  intro es
  induction es with
  | nil => intro t; rfl
  | cons e rest ih =>
    intro t
    rw [extendList_cons]
    by_cases hlt : t.num_leaves < a ^ t.height
    · rw [if_pos hlt, ih]; rfl
    · rw [if_neg hlt]

/-- The engine advances the leaf count by exactly the number of
elements that fit in the remaining capacity. -/
theorem extendList_num_leaves (a : Nat) (f : Bool) :
    ∀ (es : List Nat) (t : MT),
      (extendList a f t es).1.num_leaves
        = t.num_leaves + min es.length (a ^ t.height - t.num_leaves) := by
  intro es
  induction es with
  | nil => intro t; simp [extendList_nil]
  | cons e rest ih =>
    intro t
    rw [extendList_cons]
    by_cases hlt : t.num_leaves < a ^ t.height
    · rw [if_pos hlt, ih]
      simp only [insertMT, List.length_cons]
      omega
    · rw [if_neg hlt]
      simp only [List.length_cons]
      omega

/-- The engine returns exactly the elements beyond remaining capacity. -/
theorem extendList_leftover (a : Nat) (f : Bool) :
    ∀ (es : List Nat) (t : MT),
      (extendList a f t es).2 = es.drop (a ^ t.height - t.num_leaves) := by
  intro es
  induction es with
  | nil => intro t; simp [extendList_nil]
  | cons e rest ih =>
    intro t
    rw [extendList_cons]
    by_cases hlt : t.num_leaves < a ^ t.height
    · rw [if_pos hlt, ih]
      simp only [insertMT]
      have hsub : a ^ t.height - t.num_leaves = (a ^ t.height - (t.num_leaves + 1)) + 1 := by
        omega
      rw [hsub, List.drop_succ_cons]
    · rw [if_neg hlt]
      have hz : a ^ t.height - t.num_leaves = 0 := by omega
      rw [hz, List.drop_zero]

/-- The resulting tree state only depends on the prefix of the input
that fits: the elements beyond remaining capacity are never applied. -/
theorem extendList_take (a : Nat) (f : Bool) :
    ∀ (es : List Nat) (t : MT),
      (extendList a f t es).1
        = (extendList a f t (es.take (a ^ t.height - t.num_leaves))).1 := by
  intro es
  induction es with
  | nil => intro t; simp [extendList_nil]
  | cons e rest ih =>
    intro t
    by_cases hlt : t.num_leaves < a ^ t.height
    · have hsub : a ^ t.height - t.num_leaves = (a ^ t.height - (t.num_leaves + 1)) + 1 := by
        omega
      rw [hsub, List.take_succ_cons, extendList_cons, extendList_cons, if_pos hlt, if_pos hlt]
      have := ih (insertMT a f t e)
      simpa [insertMT] using this
    · have hz : a ^ t.height - t.num_leaves = 0 := by omega
      rw [hz, List.take_zero, extendList_cons, if_neg hlt, extendList_nil]

/-! ## Lookup on the reference shape -/

theorem div_mod_pow_facts {a h d : Nat} (hah : 0 < a ^ h) (hda : d < a ^ (h + 1)) :
    d / a ^ h < a ∧ (d / a ^ h) * a ^ h ≤ d
      ∧ d = (d / a ^ h) * a ^ h + d % a ^ h ∧ d % a ^ h < a ^ h := by
  refine ⟨?_, Nat.div_mul_le_self _ _, ?_, Nat.mod_lt _ hah⟩
  · rw [Nat.div_lt_iff_lt_mul hah, ← pow_succ']
    exact hda
  · conv_lhs => rw [← Nat.mod_add_div d (a ^ h)]
    ring

theorem lookupNode_branch (v : Digest) (cs : List MerkleNode) (b : Nat) (rest : List Nat) :
    lookupNode (MerkleNode.Branch v cs) (b :: rest) =
      match lookupNode (cs.getD b MerkleNode.Empty) rest with
      | NodeLookup.Found e pf =>
        NodeLookup.Found e
          (pf ++ [MerkleNode.Branch Digest.empty
            (cs.map fun c => MerkleNode.ForgottenSubtree c.value)])
      | NodeLookup.NotInMemory => NodeLookup.NotInMemory
      | NodeLookup.NotFound => NodeLookup.NotFound :=
  rfl

/-- In the light-weight tree every leaf strictly left of the frontier
leaf lies under a forgotten subtree, so looking it up reports
`NotInMemory`. -/
theorem lookupNode_notInMemory {a : Nat} {es : List Nat} :
    ∀ (h pos0 i : Nat), pos0 ≤ i → i < pos0 + a ^ h → i + 1 < es.length →
      lookupNode (buildRef a true es h pos0) (toTraversalPath a h (i - pos0))
        = NodeLookup.NotInMemory := by
  intro h
  induction h with
  | zero =>
    intro pos0 i h1 h2 h3
    rw [pow_zero] at h2
    have hpe : pos0 = i := by omega
    subst hpe
    have hsome : es[pos0]? = some es[pos0] := List.getElem?_eq_getElem (by omega)
    simp only [buildRef, hsome]
    rw [if_pos (by simp only [Bool.true_and, decide_eq_true_eq]; omega)]
    rfl
  | succ h ih =>
    intro pos0 i h1 h2 h3
    have hpos : 0 < a ^ (h + 1) := by omega
    obtain ⟨hah, ha⟩ := pow_pred_pos hpos
    have hplt : pos0 < es.length := by omega
    by_cases hforg : (true && decide (pos0 + a ^ (h + 1) < es.length)) = true
    · rw [buildRef_succ, if_neg (Nat.not_le.mpr hplt), if_pos hforg]
      rfl
    · rw [buildRef_succ, if_neg (Nat.not_le.mpr hplt), if_neg hforg]
      set d := i - pos0 with hd
      obtain ⟨hblt, hbm, hmod, hmod_lt⟩ := div_mod_pow_facts hah (show d < a ^ (h + 1) by omega)
      rw [toTraversalPath_succ_lt a h d (by omega), lookupNode_branch,
        rangeMap_getD _ _ hblt]
      have harg : d % a ^ h = i - (pos0 + (d / a ^ h) * a ^ h) := by omega
      rw [harg, ih (pos0 + (d / a ^ h) * a ^ h) i (by omega) (by omega) h3]

/-! ## The verification fold -/

theorem verifyFold_append :
    ∀ (l₁ l₂ : List (Nat × MerkleNode)) (v w : Digest),
      verifyFold v l₁ = Except.ok w → verifyFold v (l₁ ++ l₂) = verifyFold w l₂ := by
  intro l₁
  induction l₁ with
  | nil =>
    intro l₂ v w hvw
    simp only [verifyFold] at hvw
    cases hvw
    rfl
  | cons p rest ih =>
    intro l₂ v w hvw
    obtain ⟨b, node⟩ := p
    cases node with
    | Branch dv cs =>
      simp only [verifyFold] at hvw ⊢
      exact ih l₂ _ w hvw
    | Empty => simp [verifyFold] at hvw
    | Leaf dv p e => simp [verifyFold] at hvw
    | ForgottenSubtree dv => simp [verifyFold] at hvw

theorem verifyFold_total :
    ∀ (l : List (Nat × MerkleNode)) (v : Digest),
      (∀ x ∈ l, ∃ dv cs, x.2 = MerkleNode.Branch dv cs) →
      ∃ r, verifyFold v l = Except.ok r := by
  intro l
  induction l with
  | nil => intro v _; exact ⟨v, rfl⟩
  | cons p rest ih =>
    intro v hshape
    obtain ⟨dv, cs, hnode⟩ := hshape p (List.mem_cons_self _ _)
    obtain ⟨b, node⟩ := p
    simp only at hnode
    subst hnode
    simp only [verifyFold]
    exact ih _ fun x hx => hshape x (List.mem_cons_of_mem _ hx)

/-- The recomputed digest is injective in the starting (leaf) digest as
long as every recorded selector addresses an existing child slot. -/
theorem verifyFold_inj :
    ∀ (l : List (Nat × MerkleNode)) (v v' r r' : Digest),
      verifyFold v l = Except.ok r → verifyFold v' l = Except.ok r' →
      (∀ x ∈ l, ∃ dv cs, x.2 = MerkleNode.Branch dv cs ∧ x.1 < cs.length) →
      v ≠ v' → r ≠ r' := by
  intro l
  induction l with
  | nil =>
    intro v v' r r' hr hr' _ hne
    simp only [verifyFold] at hr hr'
    cases hr; cases hr'
    exact hne
  | cons p rest ih =>
    intro v v' r r' hr hr' hshape hne
    obtain ⟨dv, cs, hnode, hblt⟩ := hshape p (List.mem_cons_self _ _)
    obtain ⟨b, node⟩ := p
    simp only at hnode hblt
    subst hnode
    simp only [verifyFold] at hr hr'
    refine ih _ _ r r' hr hr' (fun x hx => hshape x (List.mem_cons_of_mem _ hx)) ?_
    intro hcon
    apply hne
    have hlists := branchDigest_inj hcon
    have hlen : b < (cs.map MerkleNode.value).length := by
      rw [List.length_map]; exact hblt
    have h1 := List.getElem?_set_self (l := cs.map MerkleNode.value) (i := b) (a := v) hlen
    have h2 := List.getElem?_set_self (l := cs.map MerkleNode.value) (i := b) (a := v') hlen
    rw [hlists] at h1
    rw [h1] at h2
    exact Option.some.inj h2

/-- A successful fold walks the recomputed digest: reading the result
back along the reversed selector list recovers the starting digest. -/
theorem verifyFold_subterm :
    ∀ (l : List (Nat × MerkleNode)) (v r : Digest),
      verifyFold v l = Except.ok r →
      (∀ x ∈ l, ∃ dv cs, x.2 = MerkleNode.Branch dv cs ∧ x.1 < cs.length) →
      subtermAt r (l.map Prod.fst).reverse = some v := by
  intro l
  induction l with
  | nil =>
    intro v r hr _
    simp only [verifyFold] at hr
    cases hr
    rfl
  | cons p rest ih =>
    intro v r hr hshape
    obtain ⟨dv, cs, hnode, hblt⟩ := hshape p (List.mem_cons_self _ _)
    obtain ⟨b, node⟩ := p
    simp only at hnode hblt
    subst hnode
    simp only [verifyFold] at hr
    have hih := ih _ r hr (fun x hx => hshape x (List.mem_cons_of_mem _ hx))
    simp only [List.map_cons, List.reverse_cons]
    rw [subtermAt_append, hih]
    simp only [Option.some_bind]
    show (match childAt (branchDigest ((cs.map MerkleNode.value).set b v)) b with
      | some c => subtermAt c [] | none => none) = some v
    rw [childAt_branchDigest,
      List.getElem?_set_self (by rw [List.length_map]; exact hblt)]
    rfl

/-- Looking up a materialized leaf of the reference shape succeeds,
returns the stored element, and assembles a sibling path of the right
shape whose bottom-up recomputation yields exactly the subtree digest.
In light-weight mode this applies to the frontier leaf; in
full-retention mode to every leaf. -/
theorem lookupNode_found {a : Nat} {f : Bool} {es : List Nat} :
    ∀ (h pos0 i : Nat), pos0 ≤ i → i < pos0 + a ^ h → i < es.length →
      (f = true → es.length ≤ i + 1) →
      ∃ pf, lookupNode (buildRef a f es h pos0) (toTraversalPath a h (i - pos0))
          = NodeLookup.Found (es.getD i 0) pf
        ∧ pf.length = h + 1
        ∧ pf.head? = some (MerkleNode.Leaf (Digest.leaf i (es.getD i 0)) i (es.getD i 0))
        ∧ (∀ x ∈ pf.tail, ∃ cs, x = MerkleNode.Branch Digest.empty cs ∧ cs.length = a)
        ∧ verifyFold (Digest.leaf i (es.getD i 0))
            ((toTraversalPath a h (i - pos0)).reverse.zip pf.tail)
          = Except.ok (buildRef a f es h pos0).value := by
  intro h
  induction h with
  | zero =>
    intro pos0 i h1 h2 h3 h4
    rw [pow_zero] at h2
    have hpe : pos0 = i := by omega
    subst hpe
    have hgetD : es.getD pos0 0 = es[pos0] := List.getD_eq_getElem es 0 h3
    have hsome : es[pos0]? = some (es.getD pos0 0) := by
      rw [hgetD]
      exact List.getElem?_eq_getElem h3
    have hnode : buildRef a f es 0 pos0
        = MerkleNode.Leaf (Digest.leaf pos0 (es.getD pos0 0)) pos0 (es.getD pos0 0) := by
      simp only [buildRef, hsome]
      cases f with
      | false => simp
      | true =>
        rw [if_neg (by
          simp only [Bool.true_and, decide_eq_true_eq]
          have := h4 rfl
          omega)]
    refine ⟨[MerkleNode.Leaf (Digest.leaf pos0 (es.getD pos0 0)) pos0 (es.getD pos0 0)],
      ?_, rfl, rfl, by simp, ?_⟩
    · rw [hnode]
      rfl
    · rw [hnode]
      rfl
  | succ h ih =>
    intro pos0 i h1 h2 h3 h4
    have hpos : 0 < a ^ (h + 1) := by omega
    obtain ⟨hah, ha⟩ := pow_pred_pos hpos
    have hplt : pos0 < es.length := by omega
    have hnf : ¬(f && decide (pos0 + a ^ (h + 1) < es.length)) = true := by
      cases f with
      | false => simp
      | true =>
        simp only [Bool.true_and, decide_eq_true_eq, not_lt]
        have := h4 rfl
        omega
    set cs := (List.range a).map fun j => buildRef a f es h (pos0 + j * a ^ h) with hcs
    have hnode : buildRef a f es (h + 1) pos0
        = MerkleNode.Branch (branchDigest (cs.map MerkleNode.value)) cs := by
      rw [buildRef_succ, if_neg (Nat.not_le.mpr hplt), if_neg hnf]
    set d := i - pos0 with hd
    obtain ⟨hblt, hbm, hdece, hmod_lt⟩ :=
      div_mod_pow_facts hah (show d < a ^ (h + 1) by omega)
    have hchild : cs.getD (d / a ^ h) MerkleNode.Empty
        = buildRef a f es h (pos0 + d / a ^ h * a ^ h) := by
      rw [hcs]
      exact rangeMap_getD _ _ hblt
    have harg : d % a ^ h = i - (pos0 + d / a ^ h * a ^ h) := by omega
    obtain ⟨cpf, hlk, hlen, hhead, htail, hfold⟩ :=
      ih (pos0 + d / a ^ h * a ^ h) i (by omega) (by omega) h3 h4
    cases cpf with
    | nil => simp at hlen
    | cons c0 crest =>
      simp only [List.tail_cons] at htail hfold
      simp only [List.length_cons] at hlen
      refine ⟨(c0 :: crest) ++ [MerkleNode.Branch Digest.empty
          (cs.map fun c => MerkleNode.ForgottenSubtree c.value)], ?_, ?_, ?_, ?_, ?_⟩
      · rw [hnode, toTraversalPath_succ_lt a h d (by omega), lookupNode_branch,
          hchild, harg, hlk]
      · simp only [List.length_append, List.length_cons, List.length_nil]
        omega
      · rw [List.head?_append_of_ne_nil _ (by simp)]
        exact hhead
      · intro x hx
        simp only [List.cons_append, List.tail_cons] at hx
        rcases List.mem_append.mp hx with hx | hx
        · exact htail x hx
        · have hxs : x = MerkleNode.Branch Digest.empty
              (cs.map fun c => MerkleNode.ForgottenSubtree c.value) := by
            simpa using hx
          subst hxs
          exact ⟨cs.map fun c => MerkleNode.ForgottenSubtree c.value, rfl, by simp [hcs]⟩
      · rw [toTraversalPath_succ_lt a h d (by omega), List.reverse_cons]
        simp only [List.cons_append, List.tail_cons]
        have hlenrev : (toTraversalPath a h (d % a ^ h)).reverse.length = crest.length := by
          rw [List.length_reverse, toTraversalPath_length]
          omega
        rw [List.zip_append hlenrev]
        have hfold' : verifyFold (Digest.leaf i (es.getD i 0))
            ((toTraversalPath a h (d % a ^ h)).reverse.zip crest)
            = Except.ok (buildRef a f es h (pos0 + d / a ^ h * a ^ h)).value := by
          rw [harg]
          exact hfold
        rw [verifyFold_append _ _ _ _ hfold']
        have hsnap : (cs.map fun c => MerkleNode.ForgottenSubtree c.value).map MerkleNode.value
            = cs.map MerkleNode.value := by
          rw [List.map_map]
          exact List.map_congr_left fun c _ => rfl
        have hvals : cs.map MerkleNode.value
            = (List.range a).map fun j => (buildRef a f es h (pos0 + j * a ^ h)).value := by
          rw [hcs, List.map_map]
          rfl
        have hgetv : (cs.map MerkleNode.value).getD (d / a ^ h) Digest.empty
            = (buildRef a f es h (pos0 + d / a ^ h * a ^ h)).value := by
          rw [hvals]
          exact rangeMap_getD _ _ hblt
        have hset : (cs.map MerkleNode.value).set (d / a ^ h)
              (buildRef a f es h (pos0 + d / a ^ h * a ^ h)).value
            = cs.map MerkleNode.value := by
          rw [← hgetv]
          refine set_getD_self _ _ _ ?_
          rw [hvals, List.length_map, List.length_range]
          exact hblt
        show verifyFold _ [(d / a ^ h, MerkleNode.Branch Digest.empty
            (cs.map fun c => MerkleNode.ForgottenSubtree c.value))] = _
        simp only [verifyFold, hsnap, hset, hnode]
        rfl

/-! ## Reading the canonical digest back along a traversal path -/

theorem subtermAt_nil (d : Digest) : subtermAt d [] = some d :=
  rfl

theorem rangeMap_getElem? {α : Type} (g : Nat → α) {b n : Nat} (h : b < n) :
    ((List.range n).map g)[b]? = some (g b) := by
  rw [List.getElem?_map, List.getElem?_range h]
  rfl

/-- The canonical digest of a tree contains, at the traversal path of
any in-range position `p`, exactly the leaf digest the tree commits to
at `p`. -/
theorem specD_subterm_found {a : Nat} {es : List Nat} :
    ∀ (h pos0 p : Nat), pos0 ≤ p → p < pos0 + a ^ h → p < es.length →
      subtermAt (specD a es h pos0) (toTraversalPath a h (p - pos0))
        = some (Digest.leaf p (es.getD p 0)) := by
  intro h
  induction h with
  | zero =>
    intro pos0 p h1 h2 h3
    rw [pow_zero] at h2
    have hpe : pos0 = p := by omega
    subst hpe
    have hsome : es[pos0]? = some (es.getD pos0 0) := by
      rw [List.getD_eq_getElem es 0 h3]
      exact List.getElem?_eq_getElem h3
    show some (specD a es 0 pos0) = some (Digest.leaf pos0 (es.getD pos0 0))
    simp only [specD, hsome]
  | succ h ih =>
    intro pos0 p h1 h2 h3
    have hpos : 0 < a ^ (h + 1) := by omega
    obtain ⟨hah, ha⟩ := pow_pred_pos hpos
    have hplt : pos0 < es.length := by omega
    set d := p - pos0 with hd
    obtain ⟨hblt, hbm, hdece, hmod_lt⟩ :=
      div_mod_pow_facts hah (show d < a ^ (h + 1) by omega)
    rw [specD_succ, if_neg (Nat.not_le.mpr hplt), toTraversalPath_succ_lt a h d (by omega)]
    show (match childAt (branchDigest ((List.range a).map fun i =>
        specD a es h (pos0 + i * a ^ h))) (d / a ^ h) with
      | some c => subtermAt c (toTraversalPath a h (d % a ^ h))
      | none => none) = _
    rw [childAt_branchDigest, rangeMap_getElem? _ hblt]
    have harg : d % a ^ h = p - (pos0 + d / a ^ h * a ^ h) := by omega
    rw [harg]
    exact ih (pos0 + d / a ^ h * a ^ h) p (by omega) (by omega) h3

/-- Beyond the committed leaves the canonical digest yields (at most)
the `empty` sentinel along the traversal path. -/
theorem specD_subterm_out {a : Nat} {es : List Nat} :
    ∀ (h pos0 p : Nat), pos0 ≤ p → p < pos0 + a ^ h → es.length ≤ p →
      ∀ dd, subtermAt (specD a es h pos0) (toTraversalPath a h (p - pos0)) = some dd →
        dd = Digest.empty := by
  intro h
  induction h with
  | zero =>
    intro pos0 p h1 h2 h3 dd hdd
    rw [pow_zero] at h2
    have hpe : pos0 = p := by omega
    subst hpe
    have hnone : es[pos0]? = none := by
      rw [List.getElem?_eq_none_iff]
      exact h3
    simp [specD, hnone, subtermAt_nil, toTraversalPath] at hdd
    exact hdd.symm
  | succ h ih =>
    intro pos0 p h1 h2 h3 dd hdd
    have hpos : 0 < a ^ (h + 1) := by omega
    obtain ⟨hah, ha⟩ := pow_pred_pos hpos
    set d := p - pos0 with hd
    obtain ⟨hblt, hbm, hdece, hmod_lt⟩ :=
      div_mod_pow_facts hah (show d < a ^ (h + 1) by omega)
    by_cases hplt : es.length ≤ pos0
    · rw [specD_succ, if_pos hplt, toTraversalPath_succ_lt a h d (by omega)] at hdd
      simp [subtermAt, childAt] at hdd
    · rw [specD_succ, if_neg hplt, toTraversalPath_succ_lt a h d (by omega)] at hdd
      rw [show subtermAt (branchDigest ((List.range a).map fun i =>
            specD a es h (pos0 + i * a ^ h)))
            (d / a ^ h :: toTraversalPath a h (d % a ^ h))
          = (match childAt (branchDigest ((List.range a).map fun i =>
              specD a es h (pos0 + i * a ^ h))) (d / a ^ h) with
            | some c => subtermAt c (toTraversalPath a h (d % a ^ h))
            | none => none) from rfl,
        childAt_branchDigest, rangeMap_getElem? _ hblt] at hdd
      have harg : d % a ^ h = p - (pos0 + d / a ^ h * a ^ h) := by omega
      rw [harg] at hdd
      exact ih (pos0 + d / a ^ h * a ^ h) p (by omega) (by omega) h3 dd hdd

/-! ## The public operations against the reference shape -/

theorem new_eq_ref (a : Nat) (f : Bool) (h : Nat) :
    MT.new h = ⟨buildRef a f [] h 0, h, ([] : List Nat).length⟩ := by
  simp [MT.new, buildRef_nil]

theorem extend_fst (a : Nat) (f : Bool) (t : MT) (es : List Nat) :
    (extend a f t es).1 = (extendList a f t es).1 :=
  rfl

theorem push_fst (a : Nat) (f : Bool) (t : MT) (e : Nat) :
    (push a f t e).1 = (extendList a f t [e]).1 :=
  rfl

/-- A tree freshly built by `new` and then extended is in reference
shape for the prefix of the input that fits. -/
theorem extend_new_ref (a : Nat) (f : Bool) (h : Nat) (es : List Nat) :
    (extend a f (MT.new h) es).1
      = ⟨buildRef a f (es.take (a ^ h)) h 0, h, (es.take (a ^ h)).length⟩ := by
  rw [extend_fst, new_eq_ref a f h, extendList_ref es [] h (by simp)]
  simp only [List.nil_append, List.length_nil, Nat.zero_add, Nat.sub_zero]
  have hlen : (es.take (a ^ h)).length = min es.length (a ^ h) := by
    rw [List.length_take]
    omega
  rw [hlen]

/-- Extending a tree in reference shape keeps it in reference shape,
appending exactly the prefix that fits. -/
theorem extend_ref (a : Nat) (f : Bool) (h : Nat) (es more : List Nat)
    (hle : es.length ≤ a ^ h) :
    (extend a f ⟨buildRef a f es h 0, h, es.length⟩ more).1
      = ⟨buildRef a f (es ++ more.take (a ^ h - es.length)) h 0, h,
         min (es.length + more.length) (a ^ h)⟩ := by
  rw [extend_fst, extendList_ref more es h hle]

/-- The result component of `extend`: a capacity error exactly when the
input holds more elements than the remaining capacity. -/
theorem extend_snd (a : Nat) (f : Bool) (t : MT) (es : List Nat) :
    (extend a f t es).2
      = if es.length ≤ a ^ t.height - t.num_leaves then Except.ok ()
        else Except.error "Exceed merkle tree capacity" := by
  show (if (extendList a f t es).2.isEmpty then Except.ok () else _) = _
  rw [extendList_leftover a f es t]
  by_cases hc : es.length ≤ a ^ t.height - t.num_leaves
  · rw [if_pos hc, List.drop_eq_nil_of_le hc]
    rfl
  · rw [if_neg hc]
    have : (es.drop (a ^ t.height - t.num_leaves)).length
        = es.length - (a ^ t.height - t.num_leaves) := List.length_drop _ _
    have hne : es.drop (a ^ t.height - t.num_leaves) ≠ [] := by
      intro hnil
      rw [hnil] at this
      simp at this
      omega
    cases hdrop : es.drop (a ^ t.height - t.num_leaves) with
    | nil => exact absurd hdrop hne
    | cons x xs => rfl

/-! ## Minimal height selection -/

theorem minHeightGo_ge (a n : Nat) :
    ∀ (fuel h : Nat), h ≤ minHeightGo a n fuel h := by
  intro fuel
  induction fuel with
  | zero => intro h; exact le_refl h
  | succ fuel ih =>
    intro h
    show (if n ≤ a ^ h then h else minHeightGo a n fuel (h + 1)) ≥ h
    by_cases hc : n ≤ a ^ h
    · rw [if_pos hc]
    · rw [if_neg hc]
      exact le_trans (Nat.le_succ h) (ih (h + 1))

theorem minHeightGo_spec (a n : Nat) :
    ∀ (fuel h : Nat), n ≤ a ^ (h + fuel) → n ≤ a ^ minHeightGo a n fuel h := by
  intro fuel
  induction fuel with
  | zero => intro h hle; simpa using hle
  | succ fuel ih =>
    intro h hle
    show n ≤ a ^ (if n ≤ a ^ h then h else minHeightGo a n fuel (h + 1))
    by_cases hc : n ≤ a ^ h
    · rw [if_pos hc]; exact hc
    · rw [if_neg hc]
      exact ih (h + 1) (by rw [show h + 1 + fuel = h + (fuel + 1) by omega]; exact hle)

theorem minHeightGo_min (a n : Nat) (ha : 1 ≤ a) :
    ∀ (fuel h hh : Nat), h ≤ hh → n ≤ a ^ hh → minHeightGo a n fuel h ≤ hh := by
  intro fuel
  induction fuel with
  | zero => intro h hh hle _; exact hle
  | succ fuel ih =>
    intro h hh hle hcap
    show (if n ≤ a ^ h then h else minHeightGo a n fuel (h + 1)) ≤ hh
    by_cases hc : n ≤ a ^ h
    · rw [if_pos hc]; exact hle
    · rw [if_neg hc]
      refine ih (h + 1) hh ?_ hcap
      rcases Nat.lt_or_ge h hh with hlt | hge
      · omega
      · exfalso
        exact hc (le_trans hcap (Nat.pow_le_pow_right ha (by omega)))

/-- With arity at least 2 the chosen height is at least 1, holds all
the elements, and is minimal among heights (≥ 1) that do. -/
theorem minHeight_spec (a n : Nat) (ha : 2 ≤ a) :
    1 ≤ minHeight a n ∧ n ≤ a ^ minHeight a n
      ∧ ∀ hh, 1 ≤ hh → n ≤ a ^ hh → minHeight a n ≤ hh := by
  refine ⟨minHeightGo_ge a n n 1, ?_, fun hh h1 h2 => minHeightGo_min a n (by omega) n 1 hh h1 h2⟩
  refine minHeightGo_spec a n n 1 ?_
  calc n ≤ 2 ^ n := Nat.le_of_lt (Nat.lt_two_pow n)
  _ ≤ a ^ n := Nat.pow_le_pow_left ha n
  _ ≤ a ^ (1 + n) := Nat.pow_le_pow_right (by omega) (by omega)

/-! ## Verification of well-shaped proofs -/

theorem verify_eval (a : Nat) (root : Digest) (idx hh : Nat) (v : Digest)
    (lelem : Nat) (rest : List MerkleNode) (hlen : rest.length = hh) :
    verify a root idx ⟨hh, idx, MerkleNode.Leaf v idx lelem :: rest⟩
      = match verifyFold (Digest.leaf idx lelem)
          ((toTraversalPath a hh idx).reverse.zip rest) with
        | Except.ok computed => Except.ok (decide (computed = root))
        | Except.error s => Except.error s := by
  unfold verify
  rw [if_neg (by simp [hlen]), if_neg (by simp)]
  simp

theorem tamperElem_eval (hh idx : Nat) (v : Digest) (lpos lelem e' : Nat)
    (rest : List MerkleNode) :
    tamperElem ⟨hh, idx, MerkleNode.Leaf v lpos lelem :: rest⟩ e'
      = ⟨hh, idx, MerkleNode.Leaf v lpos e' :: rest⟩ :=
  rfl

theorem tamperPos_eval (hh idx : Nat) (v : Digest) (lpos lelem p' : Nat)
    (rest : List MerkleNode) :
    tamperPos ⟨hh, idx, MerkleNode.Leaf v lpos lelem :: rest⟩ p'
      = ⟨hh, p', MerkleNode.Leaf v p' lelem :: rest⟩ :=
  rfl

/-- C2 (amended): for every tree in reachable (reference) shape and
every proof obtained from a valid lookup, `verify` accepts the
untampered proof against the true root; mutating the recorded element
(keeping the stale cached digest) always yields `Ok(Invalid)`; and
relabelling the recorded position — to any index whatsoever, in range,
beyond `num_leaves`, or even beyond capacity — yields `Ok(Invalid)`
whenever the relabelled `(position, element)` pair is not content the
tree actually commits to at that position — never a hard error.  (The
unamended claim, that every position relabelling is `Invalid`, fails
when the tree holds the same element at the relabelled position; see
the counterexample theorem.) -/
theorem C2_verify_soundness (a h i : Nat) (f : Bool) (es : List Nat) (e : Nat)
    (pf : ProofM) (e' p' : Nat)
    (hle : es.length ≤ a ^ h)
    (hlk : lookup a ⟨buildRef a f es h 0, h, es.length⟩ i = LookupRes.Found e pf) :
    verify a (buildRef a f es h 0).value i pf = Except.ok true
    ∧ (e' ≠ e →
        verify a (buildRef a f es h 0).value i (tamperElem pf e') = Except.ok false)
    ∧ ((es.length ≤ p' ∨ es.getD p' 0 ≠ e) →
        verify a (buildRef a f es h 0).value p' (tamperPos pf p') = Except.ok false) := by
  -- the lookup succeeded, so the index is in range...
  have hi : i < es.length := by
    by_contra hni
    push_neg at hni
    have : lookup a ⟨buildRef a f es h 0, h, es.length⟩ i = LookupRes.NotFound := by
      show (if es.length ≤ i then LookupRes.NotFound else _) = _
      rw [if_pos hni]
    rw [this] at hlk
    cases hlk
  -- ...and in light-weight mode it can only be the frontier leaf
  have hfr : f = true → es.length ≤ i + 1 := by
    intro hf
    subst hf
    by_contra hni
    push_neg at hni
    have hmem := @lookupNode_notInMemory a es h 0 i (Nat.zero_le _)
      (by omega) hni
    rw [Nat.sub_zero] at hmem
    have : lookup a ⟨buildRef a true es h 0, h, es.length⟩ i = LookupRes.NotInMemory := by
      show (if es.length ≤ i then LookupRes.NotFound else _) = _
      rw [if_neg (by omega), hmem]
    rw [this] at hlk
    cases hlk
  obtain ⟨cpf, hlk2, hlen, hhead, htail, hfold⟩ :=
    @lookupNode_found a f es h 0 i (Nat.zero_le _) (by omega) hi hfr
  rw [Nat.sub_zero] at hlk2 hfold
  have hlkeq : lookup a ⟨buildRef a f es h 0, h, es.length⟩ i
      = LookupRes.Found (es.getD i 0) ⟨h, i, cpf⟩ := by
    show (if es.length ≤ i then LookupRes.NotFound else _) = _
    rw [if_neg (by omega), hlk2]
  rw [hlkeq] at hlk
  injection hlk with he hpf
  subst hpf
  cases cpf with
  | nil => simp at hlen
  | cons c0 crest =>
    have hc0 : c0 = MerkleNode.Leaf (Digest.leaf i (es.getD i 0)) i (es.getD i 0) := by
      have := hhead
      simp only [List.head?_cons] at this
      exact Option.some.inj this
    subst hc0
    simp only [List.length_cons] at hlen
    have hcrest : crest.length = h := by omega
    simp only [List.tail_cons] at htail hfold
    -- the selector/sibling pairs encountered by the fold address real
    -- slots: every emitted selector is a base-a digit, for any index
    have hshape : ∀ (q : Nat),
        ∀ x ∈ (toTraversalPath a h q).reverse.zip crest,
          ∃ dv cs, x.2 = MerkleNode.Branch dv cs ∧ x.1 < cs.length := by
      intro q x hx
      obtain ⟨b, nd⟩ := x
      obtain ⟨h1x, h2x⟩ := List.of_mem_zip hx
      obtain ⟨cs, hxeq, hcslen⟩ := htail nd h2x
      refine ⟨Digest.empty, cs, hxeq, ?_⟩
      rw [hcslen]
      have hapos : 0 < a := by
        have hhpos : 0 < h := by
          rw [← hcrest]
          exact List.length_pos_of_mem h2x
        have hahpos : 0 < a ^ h := by omega
        by_contra hc
        push_neg at hc
        interval_cases a
        rw [Nat.zero_pow (by omega)] at hahpos
        omega
      exact toTraversalPath_digits_lt a hapos h q b (List.mem_reverse.mp h1x)
    refine ⟨?_, ?_, ?_⟩
    · -- the valid proof verifies
      rw [verify_eval a _ i h _ _ crest hcrest, hfold]
      simp
    · -- tampering with the recorded element is caught
      intro hne
      rw [← he] at hne
      rw [tamperElem_eval, verify_eval a _ i h _ _ crest hcrest]
      obtain ⟨r', hre⟩ := verifyFold_total _ (Digest.leaf i e')
        (fun x hx => by
          obtain ⟨dv, cs, hx1, _⟩ := hshape i x hx
          exact ⟨dv, cs, hx1⟩)
      rw [hre]
      have hne2 : Digest.leaf i (es.getD i 0) ≠ Digest.leaf i e' := by
        intro hl
        injection hl with _ h2
        exact hne h2.symm
      have hrne : r' ≠ (buildRef a f es h 0).value := fun hcon =>
        (verifyFold_inj _ _ _ _ _ hfold hre (hshape i) hne2) hcon.symm
      simp [hrne]
    · -- relabelling the recorded position is caught unless the pair is
      -- content the tree commits to at the new position
      intro hcases
      rw [← he] at hcases
      rw [tamperPos_eval, verify_eval a _ p' h _ _ crest hcrest]
      obtain ⟨r', hre⟩ := verifyFold_total _ (Digest.leaf p' (es.getD i 0))
        (fun x hx => by
          obtain ⟨dv, cs, hx1, _⟩ := hshape p' x hx
          exact ⟨dv, cs, hx1⟩)
      rw [hre]
      have hahpos : 0 < a ^ h := by omega
      have hsub : subtermAt r' (toTraversalPath a h p')
          = some (Digest.leaf p' (es.getD i 0)) := by
        have hmf : ((toTraversalPath a h p').reverse.zip crest).map Prod.fst
            = (toTraversalPath a h p').reverse := by
          refine List.map_fst_zip _ _ ?_
          rw [List.length_reverse, toTraversalPath_length, hcrest]
        have hst := verifyFold_subterm _ _ _ hre (hshape p')
        rw [hmf, List.reverse_reverse] at hst
        exact hst
      have hrne : r' ≠ (buildRef a f es h 0).value := by
        intro hcon
        rw [hcon, value_buildRef, ← toTraversalPath_mod a h p'] at hsub
        -- the walk follows the truncated (in-range) position; the leaf
        -- digest it must reach still binds the full relabelled position
        have hmlt : p' % a ^ h < a ^ h := Nat.mod_lt _ hahpos
        by_cases hplt : p' % a ^ h < es.length
        · have hfnd := @specD_subterm_found a es h 0 (p' % a ^ h) (Nat.zero_le _)
            (by omega) hplt
          rw [Nat.sub_zero] at hfnd
          rw [hfnd] at hsub
          have hleq := Option.some.inj hsub
          injection hleq with hpp hee
          rw [hpp] at hplt hee
          rcases hcases with hout | hnee
          · omega
          · exact hnee hee
        · have := @specD_subterm_out a es h 0 (p' % a ^ h) (Nat.zero_le _)
            (by omega) (by omega) (Digest.leaf p' (es.getD i 0))
            (by rw [← Nat.sub_zero (p' % a ^ h)] at hsub; exact hsub)
          cases this
      simp [hrne]

/-- C2, counterexample to the unamended claim: in the tree holding
`[3, 1, 3, 1]` (arity 3, height 2) — the very data of
`test_light_mt_lookup_helper` — take the valid proof produced by
`lookup(0)` on the full-retention tree and relabel its recorded
position from 0 to 2 while keeping the recorded element 3 (exactly the
kind of relabelling the test performs with `MerkleProof::new(2, …)`).
Since the tree also holds the element 3 at index 2, verification
returns `Ok(Valid)`, not the `Ok(Invalid)` the claim demands for every
position mutation. -/
theorem C2_counterexample :
    (match lookup 3 ((extend 3 false (MT.new 2) [3, 1, 3, 1]).1) 0 with
      | LookupRes.Found _ pf =>
        verify 3 ((extend 3 false (MT.new 2) [3, 1, 3, 1]).1).root.value 2 (tamperPos pf 2)
      | _ => Except.error "no proof") = Except.ok true := by
  decide

/-- C2, witness: the amended theorem applied to the light-weight tree
holding `[3, 1, 3, 1]` and the proof its `lookup(3)` returns: the
untampered proof verifies `Valid`; replacing the recorded element 1 by
7 gives `Invalid`; relabelling the recorded position to 0 (where the
tree holds 3 ≠ 1) gives `Invalid`. -/
theorem C2_verify_soundness_witness :
    verify 3 (buildRef 3 true [3, 1, 3, 1] 2 0).value 3 ⟨2, 3,
        [MerkleNode.Leaf (Digest.leaf 3 1) 3 1,
         MerkleNode.Branch Digest.empty
           [MerkleNode.ForgottenSubtree (Digest.leaf 3 1),
            MerkleNode.ForgottenSubtree Digest.empty,
            MerkleNode.ForgottenSubtree Digest.empty],
         MerkleNode.Branch Digest.empty
           [MerkleNode.ForgottenSubtree
              (Digest.node (Digest.leaf 0 3) (Digest.node (Digest.leaf 1 1)
                (Digest.node (Digest.leaf 2 3) Digest.empty))),
            MerkleNode.ForgottenSubtree
              (Digest.node (Digest.leaf 3 1) (Digest.node Digest.empty
                (Digest.node Digest.empty Digest.empty))),
            MerkleNode.ForgottenSubtree Digest.empty]]⟩ = Except.ok true
    ∧ verify 3 (buildRef 3 true [3, 1, 3, 1] 2 0).value 3
        (tamperElem ⟨2, 3,
        [MerkleNode.Leaf (Digest.leaf 3 1) 3 1,
         MerkleNode.Branch Digest.empty
           [MerkleNode.ForgottenSubtree (Digest.leaf 3 1),
            MerkleNode.ForgottenSubtree Digest.empty,
            MerkleNode.ForgottenSubtree Digest.empty],
         MerkleNode.Branch Digest.empty
           [MerkleNode.ForgottenSubtree
              (Digest.node (Digest.leaf 0 3) (Digest.node (Digest.leaf 1 1)
                (Digest.node (Digest.leaf 2 3) Digest.empty))),
            MerkleNode.ForgottenSubtree
              (Digest.node (Digest.leaf 3 1) (Digest.node Digest.empty
                (Digest.node Digest.empty Digest.empty))),
            MerkleNode.ForgottenSubtree Digest.empty]]⟩ 7) = Except.ok false
    ∧ verify 3 (buildRef 3 true [3, 1, 3, 1] 2 0).value 0
        (tamperPos ⟨2, 3,
        [MerkleNode.Leaf (Digest.leaf 3 1) 3 1,
         MerkleNode.Branch Digest.empty
           [MerkleNode.ForgottenSubtree (Digest.leaf 3 1),
            MerkleNode.ForgottenSubtree Digest.empty,
            MerkleNode.ForgottenSubtree Digest.empty],
         MerkleNode.Branch Digest.empty
           [MerkleNode.ForgottenSubtree
              (Digest.node (Digest.leaf 0 3) (Digest.node (Digest.leaf 1 1)
                (Digest.node (Digest.leaf 2 3) Digest.empty))),
            MerkleNode.ForgottenSubtree
              (Digest.node (Digest.leaf 3 1) (Digest.node Digest.empty
                (Digest.node Digest.empty Digest.empty))),
            MerkleNode.ForgottenSubtree Digest.empty]]⟩ 0) = Except.ok false
    ∧ verify 3 (buildRef 3 true [3, 1, 3, 1] 2 0).value 9
        (tamperPos ⟨2, 3,
        [MerkleNode.Leaf (Digest.leaf 3 1) 3 1,
         MerkleNode.Branch Digest.empty
           [MerkleNode.ForgottenSubtree (Digest.leaf 3 1),
            MerkleNode.ForgottenSubtree Digest.empty,
            MerkleNode.ForgottenSubtree Digest.empty],
         MerkleNode.Branch Digest.empty
           [MerkleNode.ForgottenSubtree
              (Digest.node (Digest.leaf 0 3) (Digest.node (Digest.leaf 1 1)
                (Digest.node (Digest.leaf 2 3) Digest.empty))),
            MerkleNode.ForgottenSubtree
              (Digest.node (Digest.leaf 3 1) (Digest.node Digest.empty
                (Digest.node Digest.empty Digest.empty))),
            MerkleNode.ForgottenSubtree Digest.empty]]⟩ 9) = Except.ok false := by
  obtain ⟨h1, h2, h3⟩ := C2_verify_soundness 3 2 3 true [3, 1, 3, 1] 1 ⟨2, 3,
        [MerkleNode.Leaf (Digest.leaf 3 1) 3 1,
         MerkleNode.Branch Digest.empty
           [MerkleNode.ForgottenSubtree (Digest.leaf 3 1),
            MerkleNode.ForgottenSubtree Digest.empty,
            MerkleNode.ForgottenSubtree Digest.empty],
         MerkleNode.Branch Digest.empty
           [MerkleNode.ForgottenSubtree
              (Digest.node (Digest.leaf 0 3) (Digest.node (Digest.leaf 1 1)
                (Digest.node (Digest.leaf 2 3) Digest.empty))),
            MerkleNode.ForgottenSubtree
              (Digest.node (Digest.leaf 3 1) (Digest.node Digest.empty
                (Digest.node Digest.empty Digest.empty))),
            MerkleNode.ForgottenSubtree Digest.empty]]⟩ 7 0 (by decide) rfl
  obtain ⟨_, _, h4⟩ := C2_verify_soundness 3 2 3 true [3, 1, 3, 1] 1 ⟨2, 3,
        [MerkleNode.Leaf (Digest.leaf 3 1) 3 1,
         MerkleNode.Branch Digest.empty
           [MerkleNode.ForgottenSubtree (Digest.leaf 3 1),
            MerkleNode.ForgottenSubtree Digest.empty,
            MerkleNode.ForgottenSubtree Digest.empty],
         MerkleNode.Branch Digest.empty
           [MerkleNode.ForgottenSubtree
              (Digest.node (Digest.leaf 0 3) (Digest.node (Digest.leaf 1 1)
                (Digest.node (Digest.leaf 2 3) Digest.empty))),
            MerkleNode.ForgottenSubtree
              (Digest.node (Digest.leaf 3 1) (Digest.node Digest.empty
                (Digest.node Digest.empty Digest.empty))),
            MerkleNode.ForgottenSubtree Digest.empty]]⟩ 7 9 (by decide) rfl
  exact ⟨h1, h2 (by decide), h3 (by decide), h4 (by decide)⟩

/-- C1: converting a subtree to `ForgottenSubtree` preserves exactly
its digest, and the light-weight (forgetting) and full-retention modes
of the one extend engine produce identical root digests on every
sequence of builds and extends — whether extended once or repeatedly
with further elements (and `push` is the one-element `extend`). -/
theorem C1_forgetting_preserves_root_digest (a h : Nat) (es more : List Nat)
    (n : MerkleNode) :
    (MerkleNode.ForgottenSubtree n.value).value = n.value
    ∧ (extend a true (MT.new h) es).1.root.value
        = (extend a false (MT.new h) es).1.root.value
    ∧ (extend a true ((extend a true (MT.new h) es).1) more).1.root.value
        = (extend a false ((extend a false (MT.new h) es).1) more).1.root.value
    ∧ (extend a true ((extend a true (MT.new h) es).1) more).1.num_leaves
        = (extend a false ((extend a false (MT.new h) es).1) more).1.num_leaves := by
  have hstep : ∀ f : Bool, (extend a f ((extend a f (MT.new h) es).1) more).1
      = (⟨buildRef a f (es.take (a ^ h) ++ more.take (a ^ h - (es.take (a ^ h)).length)) h 0,
          h, min ((es.take (a ^ h)).length + more.length) (a ^ h)⟩ : MT) := by
    intro f
    rw [extend_new_ref]
    exact extend_ref a f h (es.take (a ^ h)) more (by rw [List.length_take]; omega)
  refine ⟨rfl, ?_, ?_, ?_⟩
  · rw [extend_new_ref, extend_new_ref]
    show (buildRef a true _ h 0).value = (buildRef a false _ h 0).value
    rw [value_buildRef, value_buildRef]
  · rw [hstep true, hstep false]
    show (buildRef a true _ h 0).value = (buildRef a false _ h 0).value
    rw [value_buildRef, value_buildRef]
  · rw [hstep true, hstep false]

/-- C3: when the input exceeds the remaining capacity, `extend` inserts
exactly the elements that fit, advances `num_leaves` by that count (to
full capacity), and only then reports the capacity `ParameterError`;
the resulting tree is the one obtained by successfully extending with
just the fitting prefix — nothing is rolled back. -/
theorem C3_partial_extend_no_rollback (a : Nat) (f : Bool) (t : MT) (es : List Nat)
    (hcap : t.num_leaves ≤ a ^ t.height)
    (hover : a ^ t.height - t.num_leaves < es.length) :
    (extend a f t es).2 = Except.error "Exceed merkle tree capacity"
    ∧ (extend a f t es).1.num_leaves = t.num_leaves + (a ^ t.height - t.num_leaves)
    ∧ (extend a f t es).1.num_leaves = a ^ t.height
    ∧ (extend a f t es).1 = (extend a f t (es.take (a ^ t.height - t.num_leaves))).1
    ∧ (extend a f t (es.take (a ^ t.height - t.num_leaves))).2 = Except.ok () := by
  refine ⟨?_, ?_, ?_, ?_, ?_⟩
  · rw [extend_snd, if_neg (by omega)]
  · rw [extend_fst, extendList_num_leaves]
    omega
  · rw [extend_fst, extendList_num_leaves]
    omega
  · rw [extend_fst, extend_fst]
    exact extendList_take a f es t
  · rw [extend_snd, if_pos (by rw [List.length_take]; omega)]

/-- C4: elements are assigned strictly sequential leaf indices starting
at 0: after appending the sequence `es` (any mix of `push`/`extend`
composes to this), the `i`-th appended element is stored at leaf index
`i` with `i` recorded in the leaf, and even the light-weight tree's
root digest commits element `i` to position `i` on its traversal
path. -/
theorem C4_sequential_indices (a h i : Nat) (es : List Nat)
    (hfit : es.length ≤ a ^ h) (hi : i < es.length) :
    (∃ pf, lookup a ((extend a false (MT.new h) es).1) i
        = LookupRes.Found (es.getD i 0) pf
      ∧ pf.pos = i
      ∧ pf.path.head? = some (MerkleNode.Leaf (Digest.leaf i (es.getD i 0)) i (es.getD i 0)))
    ∧ subtermAt ((extend a true (MT.new h) es).1.root.value) (toTraversalPath a h i)
        = some (Digest.leaf i (es.getD i 0)) := by
  have htake : es.take (a ^ h) = es := List.take_of_length_le hfit
  constructor
  · rw [extend_new_ref, htake]
    have hfr : (false : Bool) = true → es.length ≤ i + 1 := fun hc => nomatch hc
    obtain ⟨cpf, hlk2, hlen, hhead, htail, hfold⟩ :=
      @lookupNode_found a false es h 0 i (Nat.zero_le _)
        (by omega) hi hfr
    rw [Nat.sub_zero] at hlk2
    refine ⟨⟨h, i, cpf⟩, ?_, rfl, ?_⟩
    · show (if es.length ≤ i then LookupRes.NotFound else _) = _
      rw [if_neg (by omega), hlk2]
    · exact hhead
  · rw [extend_new_ref, htake]
    show subtermAt ((buildRef a true es h 0).value) _ = _
    rw [value_buildRef]
    have hsf := @specD_subterm_found a es h 0 i (Nat.zero_le _) (by omega) hi
    rw [Nat.sub_zero] at hsf
    exact hsf

/-- C5: in a light-weight tree filled to capacity by appends, every
leaf except the most recently inserted frontier leaf has been
forgotten (`NotInMemory`), the frontier leaf is still `Found` with its
element, and — for every tree — any index at or beyond `num_leaves`
is `NotFound`. -/
theorem C5_lightweight_lookup (a h i j : Nat) (es : List Nat) (t : MT)
    (hfull : es.length = a ^ h) (hi : i + 1 < a ^ h) (hj : t.num_leaves ≤ j) :
    lookup a ((extend a true (MT.new h) es).1) i = LookupRes.NotInMemory
    ∧ (∃ pf, lookup a ((extend a true (MT.new h) es).1) (a ^ h - 1)
        = LookupRes.Found (es.getD (a ^ h - 1) 0) pf)
    ∧ lookup a t j = LookupRes.NotFound := by
  have htake : es.take (a ^ h) = es := List.take_of_length_le (by omega)
  refine ⟨?_, ?_, ?_⟩
  · rw [extend_new_ref, htake]
    have hmem := @lookupNode_notInMemory a es h 0 i (Nat.zero_le _)
      (by omega) (by omega)
    rw [Nat.sub_zero] at hmem
    show (if es.length ≤ i then LookupRes.NotFound else _) = _
    rw [if_neg (by omega), hmem]
  · rw [extend_new_ref, htake]
    have hfr : (true : Bool) = true → es.length ≤ (a ^ h - 1) + 1 := fun _ => by omega
    obtain ⟨cpf, hlk2, _, _, _, _⟩ :=
      @lookupNode_found a true es h 0 (a ^ h - 1) (Nat.zero_le _)
        (by omega) (by omega) hfr
    rw [Nat.sub_zero] at hlk2
    refine ⟨⟨h, a ^ h - 1, cpf⟩, ?_⟩
    show (if es.length ≤ a ^ h - 1 then LookupRes.NotFound else _) = _
    rw [if_neg (by omega), hlk2]
  · show (if t.num_leaves ≤ j then LookupRes.NotFound else _) = _
    rw [if_pos hj]

/-- C6: the capacity invariant `num_leaves ≤ arity ^ height` holds
after `new` and after every successful `from_elems`, and is preserved
by every `extend` and every `push`, including calls that report a
capacity error. -/
theorem C6_capacity_invariant (a h : Nat) (f : Bool) (oh : Option Nat) (t t' : MT)
    (es : List Nat) (e : Nat) :
    (MT.new h).num_leaves ≤ a ^ (MT.new h).height
    ∧ (from_elems a oh es = Except.ok t' → t'.num_leaves ≤ a ^ t'.height)
    ∧ (t.num_leaves ≤ a ^ t.height →
        (extend a f t es).1.num_leaves ≤ a ^ (extend a f t es).1.height)
    ∧ (t.num_leaves ≤ a ^ t.height →
        (push a f t e).1.num_leaves ≤ a ^ (push a f t e).1.height) := by
  refine ⟨Nat.zero_le _, ?_, ?_, ?_⟩
  · intro hok
    set hh := (match oh with | some x => x | none => minHeight a es.length) with hhh
    have hshow : from_elems a oh es
        = if a ^ hh < es.length then Except.error "Not enough capacity"
          else Except.ok ⟨buildRef a true es hh 0, hh, es.length⟩ := rfl
    rw [hshow] at hok
    by_cases hc : a ^ hh < es.length
    · rw [if_pos hc] at hok
      cases hok
    · rw [if_neg hc] at hok
      injection hok with hok
      rw [← hok]
      show es.length ≤ a ^ hh
      omega
  · intro hle
    have hh := extendList_height a f es t
    rw [extend_fst, extendList_num_leaves, hh]
    omega
  · intro hle
    have hh := extendList_height a f [e] t
    rw [push_fst, extendList_num_leaves, hh]
    simp only [List.length_cons, List.length_nil]
    omega

/-- C7: capacity is `arity ^ height` in arbitrary-precision arithmetic
(`Nat` here, mirroring the `BigUint` computation, so no height can
overflow it), it never changes under `extend`, and a tree with arity 3
and height 2 has capacity 9. -/
theorem C7_capacity_arbitrary_precision (a h : Nat) (f : Bool) (t : MT) (es : List Nat) :
    capacity a (MT.new h) = a ^ h
    ∧ capacity a ((extend a f t es).1) = capacity a t
    ∧ capacity 3 (MT.new 2) = 9 := by
  refine ⟨rfl, ?_, by decide⟩
  show a ^ (extend a f t es).1.height = a ^ t.height
  rw [extend_fst, extendList_height]

/-- C8: `from_elems(Some(h), es)` succeeds exactly when the elements
fit (`len ≤ a ^ h`), failing with a `ParameterError` otherwise — in
particular with `Some(1)` it succeeds iff `len ≤ arity`; with no
height, the minimal height `≥ 1` satisfying `arity ^ height ≥ len` is
chosen, and that call always succeeds. -/
theorem C8_from_elems_capacity (a h : Nat) (es : List Nat) (ha : 2 ≤ a) :
    (es.length ≤ a ^ h →
        from_elems a (some h) es = Except.ok ⟨buildRef a true es h 0, h, es.length⟩)
    ∧ (a ^ h < es.length → from_elems a (some h) es = Except.error "Not enough capacity")
    ∧ (es.length ≤ a →
        from_elems a (some 1) es = Except.ok ⟨buildRef a true es 1 0, 1, es.length⟩)
    ∧ (a < es.length → from_elems a (some 1) es = Except.error "Not enough capacity")
    ∧ (∀ t, from_elems a none es = Except.ok t →
        1 ≤ t.height ∧ es.length ≤ a ^ t.height
          ∧ ∀ hh, 1 ≤ hh → es.length ≤ a ^ hh → t.height ≤ hh)
    ∧ (∃ t, from_elems a none es = Except.ok t) := by
  obtain ⟨hm1, hm2, hm3⟩ := minHeight_spec a es.length ha
  have hpow1 : a ^ 1 = a := pow_one a
  have hnone : from_elems a none es
      = Except.ok ⟨buildRef a true es (minHeight a es.length) 0,
          minHeight a es.length, es.length⟩ := by
    show (if a ^ minHeight a es.length < es.length then _ else _) = _
    rw [if_neg (by omega)]
  refine ⟨?_, ?_, ?_, ?_, ?_, ⟨_, hnone⟩⟩
  · intro hle
    show (if a ^ h < es.length then _ else _) = _
    rw [if_neg (by omega)]
  · intro hlt
    show (if a ^ h < es.length then _ else _) = _
    rw [if_pos hlt]
  · intro hle
    show (if a ^ 1 < es.length then _ else _) = _
    rw [if_neg (by omega)]
  · intro hlt
    show (if a ^ 1 < es.length then _ else _) = _
    rw [if_pos (by omega)]
  · intro t hok
    rw [hnone] at hok
    injection hok with hok
    rw [← hok]
    exact ⟨hm1, hm2, hm3⟩

/-- C9: `push(element)` is observationally `extend([element])` — it is
the same computation, producing the same tree and the same result: one
element inserted at index `num_leaves` when below capacity, a
`ParameterError` leaving the tree untouched when full. -/
theorem C9_push_extend_singleton (a : Nat) (f : Bool) (t : MT) (e : Nat) :
    push a f t e = extend a f t [e]
    ∧ (t.num_leaves < a ^ t.height →
        (push a f t e).1.num_leaves = t.num_leaves + 1
          ∧ (push a f t e).2 = Except.ok ())
    ∧ (a ^ t.height ≤ t.num_leaves →
        push a f t e = (t, Except.error "Exceed merkle tree capacity")) := by
  refine ⟨rfl, ?_, ?_⟩
  · intro hlt
    constructor
    · rw [push_fst, extendList_num_leaves]
      simp only [List.length_cons, List.length_nil]
      omega
    · show (extend a f t [e]).2 = _
      rw [extend_snd, if_pos (by simp only [List.length_cons, List.length_nil]; omega)]
  · intro hge
    show ((extendList a f t [e]).1,
      if (extendList a f t [e]).2.isEmpty then Except.ok ()
      else Except.error "Exceed merkle tree capacity") = _
    rw [extendList_cons, if_neg (by omega)]
    rfl

/-- C10: on a tree already at full capacity, `extend` with a non-empty
sequence and `push` with any element both return the capacity
`ParameterError` and leave the tree state — root node, digest and
`num_leaves` — exactly unchanged. -/
theorem C10_full_tree_extend_unchanged (a : Nat) (f : Bool) (t : MT) (e : Nat)
    (es : List Nat) (hfull : t.num_leaves = a ^ t.height) :
    extend a f t (e :: es) = (t, Except.error "Exceed merkle tree capacity")
    ∧ push a f t e = (t, Except.error "Exceed merkle tree capacity") := by
  constructor
  · show ((extendList a f t (e :: es)).1,
      if (extendList a f t (e :: es)).2.isEmpty then Except.ok ()
      else Except.error "Exceed merkle tree capacity") = _
    rw [extendList_cons, if_neg (by omega)]
    rfl
  · show ((extendList a f t [e]).1,
      if (extendList a f t [e]).2.isEmpty then Except.ok ()
      else Except.error "Exceed merkle tree capacity") = _
    rw [extendList_cons, if_neg (by omega)]
    rfl

/-- C3, witness: the concrete scenario of
`test_light_mt_insertion_helper` — arity 3, height 2, two leaves
pushed, then an extend by 9 elements: 7 are inserted, the call errors,
and `num_leaves` is 9. -/
theorem C3_partial_extend_no_rollback_witness :
    (extend 3 true ((extend 3 true (MT.new 2) [2, 3]).1) [0, 0, 0, 0, 0, 0, 0, 0, 0]).2
        = Except.error "Exceed merkle tree capacity"
    ∧ (extend 3 true ((extend 3 true (MT.new 2) [2, 3]).1)
          [0, 0, 0, 0, 0, 0, 0, 0, 0]).1.num_leaves
        = (extend 3 true (MT.new 2) [2, 3]).1.num_leaves
          + (3 ^ (extend 3 true (MT.new 2) [2, 3]).1.height
             - (extend 3 true (MT.new 2) [2, 3]).1.num_leaves)
    ∧ (extend 3 true ((extend 3 true (MT.new 2) [2, 3]).1)
          [0, 0, 0, 0, 0, 0, 0, 0, 0]).1.num_leaves
        = 3 ^ (extend 3 true (MT.new 2) [2, 3]).1.height
    ∧ (extend 3 true ((extend 3 true (MT.new 2) [2, 3]).1)
          [0, 0, 0, 0, 0, 0, 0, 0, 0]).1.num_leaves = 9 := by
  obtain ⟨h1, h2, h3, _, _⟩ := C3_partial_extend_no_rollback 3 true
    ((extend 3 true (MT.new 2) [2, 3]).1) [0, 0, 0, 0, 0, 0, 0, 0, 0]
    (by decide) (by decide)
  refine ⟨h1, h2, h3, ?_⟩
  rw [h3]
  decide

/-- C4, witness: after appending `[4, 5, 6, 7]` the element `6`
(the 2nd appended, counting from 0) sits at leaf index 2 with `2`
recorded in the leaf, in both operating modes. -/
theorem C4_sequential_indices_witness :
    (∃ pf, lookup 3 ((extend 3 false (MT.new 2) [4, 5, 6, 7]).1) 2
        = LookupRes.Found ([4, 5, 6, 7].getD 2 0) pf
      ∧ pf.pos = 2
      ∧ pf.path.head? = some (MerkleNode.Leaf (Digest.leaf 2 ([4, 5, 6, 7].getD 2 0)) 2
          ([4, 5, 6, 7].getD 2 0)))
    ∧ subtermAt ((extend 3 true (MT.new 2) [4, 5, 6, 7]).1.root.value)
        (toTraversalPath 3 2 2)
        = some (Digest.leaf 2 ([4, 5, 6, 7].getD 2 0)) :=
  C4_sequential_indices 3 2 2 [4, 5, 6, 7] (by decide) (by decide)

/-- C5, witness: the light-weight tree filled to its capacity of 9:
index 4 is `NotInMemory`, the frontier index 8 is `Found`, and index 9
is `NotFound`. -/
theorem C5_lightweight_lookup_witness :
    lookup 3 ((extend 3 true (MT.new 2) [0, 1, 2, 3, 4, 5, 6, 7, 8]).1) 4
        = LookupRes.NotInMemory
    ∧ (∃ pf, lookup 3 ((extend 3 true (MT.new 2) [0, 1, 2, 3, 4, 5, 6, 7, 8]).1)
          (3 ^ 2 - 1)
        = LookupRes.Found ([0, 1, 2, 3, 4, 5, 6, 7, 8].getD (3 ^ 2 - 1) 0) pf)
    ∧ lookup 3 ((extend 3 true (MT.new 2) [0, 1, 2, 3, 4, 5, 6, 7, 8]).1) 9
        = LookupRes.NotFound :=
  C5_lightweight_lookup 3 2 4 9 [0, 1, 2, 3, 4, 5, 6, 7, 8]
    ((extend 3 true (MT.new 2) [0, 1, 2, 3, 4, 5, 6, 7, 8]).1)
    (by decide) (by decide) (by decide)

/-- C6, witness: the invariant at arity 3, height 2, for `new`, a
successful `from_elems`, an `extend` and a `push`. -/
theorem C6_capacity_invariant_witness :
    (MT.new 2).num_leaves ≤ 3 ^ (MT.new 2).height
    ∧ (⟨buildRef 3 true [1, 2] 2 0, 2, [1, 2].length⟩ : MT).num_leaves
        ≤ 3 ^ (⟨buildRef 3 true [1, 2] 2 0, 2, [1, 2].length⟩ : MT).height
    ∧ (extend 3 true (MT.new 2) [1, 2]).1.num_leaves
        ≤ 3 ^ (extend 3 true (MT.new 2) [1, 2]).1.height
    ∧ (push 3 true (MT.new 2) 1).1.num_leaves
        ≤ 3 ^ (push 3 true (MT.new 2) 1).1.height := by
  obtain ⟨g1, g2, g3, g4⟩ := C6_capacity_invariant 3 2 true (some 2) (MT.new 2)
    ⟨buildRef 3 true [1, 2] 2 0, 2, [1, 2].length⟩ [1, 2] 1
  exact ⟨g1, g2 rfl, g3 (by decide), g4 (by decide)⟩

/-- C8, witness: the builder test of `test_light_mt_builder_helper` —
with height 1 and arity 3, three elements fit, four do not; with no
height the call succeeds. -/
theorem C8_from_elems_capacity_witness :
    from_elems 3 (some 1) [0, 0, 0]
        = Except.ok ⟨buildRef 3 true [0, 0, 0] 1 0, 1, [0, 0, 0].length⟩
    ∧ from_elems 3 (some 1) [0, 0, 0, 0] = Except.error "Not enough capacity"
    ∧ (∃ t, from_elems 3 none [0, 0, 0, 0] = Except.ok t) := by
  obtain ⟨_, _, g3, _, _, _⟩ := C8_from_elems_capacity 3 1 [0, 0, 0] (by decide)
  obtain ⟨_, _, _, g4b, _, g6b⟩ := C8_from_elems_capacity 3 1 [0, 0, 0, 0] (by decide)
  exact ⟨g3 (by decide), g4b (by decide), g6b⟩

/-- C9, witness: a push below capacity inserts one element with result
`Ok`, and a push on the full tree of capacity 9 errors leaving the
tree unchanged. -/
theorem C9_push_extend_singleton_witness :
    push 3 true (MT.new 2) 5 = extend 3 true (MT.new 2) [5]
    ∧ (push 3 true (MT.new 2) 5).1.num_leaves = (MT.new 2).num_leaves + 1
    ∧ (push 3 true (MT.new 2) 5).2 = Except.ok ()
    ∧ push 3 true ((extend 3 true (MT.new 2) [0, 0, 0, 0, 0, 0, 0, 0, 0]).1) 7
        = ((extend 3 true (MT.new 2) [0, 0, 0, 0, 0, 0, 0, 0, 0]).1,
           Except.error "Exceed merkle tree capacity") := by
  obtain ⟨g1, g2, _⟩ := C9_push_extend_singleton 3 true (MT.new 2) 5
  obtain ⟨_, _, g3⟩ := C9_push_extend_singleton 3 true
    ((extend 3 true (MT.new 2) [0, 0, 0, 0, 0, 0, 0, 0, 0]).1) 7
  obtain ⟨g2a, g2b⟩ := g2 (by decide)
  exact ⟨g1, g2a, g2b, g3 (by decide)⟩

/-- C10, witness: on the full tree of capacity 9, `extend([1])` and
`push 1` both error and return the tree unchanged. -/
theorem C10_full_tree_extend_unchanged_witness :
    extend 3 true ((extend 3 true (MT.new 2) [0, 0, 0, 0, 0, 0, 0, 0, 0]).1) [1]
        = ((extend 3 true (MT.new 2) [0, 0, 0, 0, 0, 0, 0, 0, 0]).1,
           Except.error "Exceed merkle tree capacity")
    ∧ push 3 true ((extend 3 true (MT.new 2) [0, 0, 0, 0, 0, 0, 0, 0, 0]).1) 1
        = ((extend 3 true (MT.new 2) [0, 0, 0, 0, 0, 0, 0, 0, 0]).1,
           Except.error "Exceed merkle tree capacity") :=
  C10_full_tree_extend_unchanged 3 true
    ((extend 3 true (MT.new 2) [0, 0, 0, 0, 0, 0, 0, 0, 0]).1) 1 [] (by decide)
